import Mathlib

/-!
Verification development for the cm-tarnation incremental parser.

This file shallowly embeds the core data structures and operations of the
repository — the chunked token cache (`Chunk`, `ChunkBuffer`), the grammar
matching engine (`Rule`, `Grammar`), the parser driver step, and the
compiler (`CompileStack`, `CompilerM`) — and proves properties about them.

Conventions of the embedding:
* JavaScript numbers used as array-store values go through the same
  coercions the typed arrays perform (`toInt16`, `toInt32`, modulo 2^16 /
  2^32 for `Int16Array`, `Int32Array`, `Uint16Array`, `Uint32Array`).
* Mutation is replaced by explicit state passing; `clone()` of immutable
  values is the identity.
* Fallible code (TS `throw`) returns `Except`/`Option`.
* Growable typed arrays holding records are modelled as lists (growth is a
  capacity detail); fixed-capacity typed arrays (the compile stack) keep
  their exact JS out-of-bounds semantics: writes past the end are dropped,
  reads past the end give `none` (JS `undefined`).
-/

/-- JS `ToInt16` coercion, as performed by an `Int16Array` store. -/
def toInt16 (n : Int) : Int :=
  ((n + 32768) % 65536) - 32768

/-- JS `ToInt32` coercion, as performed by an `Int32Array` store. -/
def toInt32 (n : Int) : Int :=
  ((n + 2147483648) % 4294967296) - 2147483648

/-- JS `String.prototype.slice(a, b)` for in-range ascending arguments. -/
def strSlice (s : String) (a b : Nat) : String :=
  String.mk ((s.toList.drop a).take (b - a))

/-- JS coercion of a possibly-`undefined` number to an `Int32Array` store
value: `ToInt32(undefined) = ToInt32(NaN) = 0`. -/
def jsIntOf (o : Option Nat) : Int :=
  match o with
  | some v => (v : Int)
  | none => 0

/-! ## Grammar data model

`Wrapping` and `NodeID` are from `src/constants.ts`; `GrammarStackElement`
is from `src/types.ts`.
-/

/-- `Wrapping` enum from src/src/constants.ts. -/
inductive Wrapping where
  | FULL
  | BEGIN
  | END
deriving DecidableEq

/-- `NodeID` enum from src/src/constants.ts. -/
def NodeID.NONE : Nat := 0

def NodeID.TOP : Nat := 1

def NodeID.ERROR_ADVANCE : Nat := 2

def NodeID.ERROR_INCOMPLETE : Nat := 3

def COMPILER_STACK_SIZE : Nat := 64

def MARGIN_BEFORE : Nat := 32

def MARGIN_AFTER : Nat := 128

def FINISH_INCOMPLETE_NODES : Bool := true

/-- A grammar `Node` (type descriptor): identity and name.  The grammar
compile-time extras (autocomplete tag, props) are irrelevant here. -/
structure Node where
  id : Nat
  name : String
deriving DecidableEq

/-- `Node.None` from src/src/grammar (the "silent"/no-emission node). -/
def Node.NoneN : Node := ⟨NodeID.NONE, ""⟩

/-- `MatchOutput` from src/src/types.ts. -/
structure MatchOutput where
  total : String
  captures : Option (List String)
  length : Nat
deriving DecidableEq

/-- `GrammarStackElement` from src/src/types.ts: one pushed region of a
nested construct.  Rules are referenced arena-style by index into the
grammar's rule list (the TS object graph holds direct references; indices
give the same lookups with decidable equality). -/
structure GrammarStackElement where
  node : Node
  rules : List Nat
  endRule : Option Nat
deriving DecidableEq

/-- Modelled from the spec: `grammar/state.ts` is not under src.  Spec §3:
"GrammarState: `{ variables: name→value table, context: mutable table,
stack: ordered list of GrammarStackElement }`"; rule matching also stores
the previous `MatchOutput` in `state.last` (used by rule.ts).  The head of
`stack` is the top (active) frame. -/
structure GrammarState where
  vars : List (String × String)
  context : List (String × String)
  stack : List GrammarStackElement
  last? : Option MatchOutput
deriving DecidableEq

/-- Modelled from the spec: `grammar/state.ts` is not under src.  Spec §4.3:
"`equals(other)` must be a structural comparison … same stack node
ids/positions/rule identities and same variable table contents". -/
def GrammarState.equals (a b : GrammarState) : Bool :=
  decide (a.stack = b.stack ∧ a.vars = b.vars ∧ a.context = b.context)

/-! ## Tokens, chunks and the chunk buffer

From src/src/types.ts (`GrammarToken`), src/src/compiler/chunk.ts and
src/src/compiler/buffer.ts.  Document positions are `Int` (JS numbers that
may be slid by a negative edit offset). -/

/-- `GrammarToken` from src/src/types.ts:
`[id | null, from, to, open?, close?]`. -/
structure GrammarToken where
  id : Option Int
  from_ : Int
  to_ : Int
  opens : Option (List Nat)
  closes : Option (List Nat)
deriving DecidableEq

/-- `Chunk` from src/src/compiler/chunk.ts.  `tokens` is the `Int16Array`
of id/from/to triples (flattened, already `ToInt16`-coerced); the
`tree` cache field is omitted (it caches `canConvertToTree`, a pure
function of the remaining fields, and the built tree). -/
structure Chunk where
  from_ : Int
  to_ : Int
  length : Int
  tokens : List Int
  size : Nat
  opens : Option (List Nat)
  closes : Option (List Nat)
  state : GrammarState
deriving DecidableEq

/-- `new Chunk(pos, state)` from chunk.ts. -/
def Chunk.new (pos : Int) (state : GrammarState) : Chunk :=
  ⟨pos, pos, 0, [], 0, none, none, state⟩

/-- `Chunk.offset` from chunk.ts. -/
def Chunk.offset (c : Chunk) (offset : Int) : Chunk :=
  let f := c.from_ + offset
  { c with from_ := f, to_ := f + c.length }

/-- `Chunk.add` from chunk.ts: extends the chunk's span, then stores the
token id and chunk-relative positions into the `Int16Array` (geometric
array growth is a capacity detail the list absorbs). -/
def Chunk.add (c : Chunk) (id : Option Int) (from_ to_ : Int) : Chunk :=
  let c := if to_ > c.to_ then { c with to_ := to_, length := to_ - c.from_ } else c
  let relFrom := from_ - c.from_
  let relTo := to_ - c.from_
  match id with
  | none => c
  | some i =>
      { c with tokens := c.tokens ++ [toInt16 i, toInt16 relFrom, toInt16 relTo],
               size := c.size + 1 }

/-- `Chunk.pushOpen` from chunk.ts. -/
def Chunk.pushOpen (c : Chunk) (ids : List Nat) : Chunk :=
  { c with opens := some (c.opens.getD [] ++ ids) }

/-- `Chunk.pushClose` from chunk.ts. -/
def Chunk.pushClose (c : Chunk) (ids : List Nat) : Chunk :=
  { c with closes := some (c.closes.getD [] ++ ids) }

/-- `Chunk.canConvertToTree` from chunk.ts (without the memoized-failure
shortcut, which caches this function's own result). -/
def Chunk.canConvertToTree (c : Chunk) : Bool :=
  if c.size ≤ 1 then false
  else
    match c.opens, c.closes with
    | none, none => true
    | some o, some cl => decide (o.reverse = cl)
    | _, _ => false

/-- `Chunk.isReusable` from chunk.ts. -/
def Chunk.isReusable (c : Chunk) (state : GrammarState) (pos : Int) (offset : Int) : Bool :=
  if c.from_ + offset ≠ pos then false
  else if !(state.equals c.state) then false
  else true

/-- `ChunkBuffer` from src/src/compiler/buffer.ts. -/
structure ChunkBuffer where
  chunks : List Chunk
deriving DecidableEq

/-- Replaces the last element of a list, if any (the `buffer.last = …`
setter pattern of buffer.ts). -/
def replaceLast (l : List Chunk) (f : Chunk → Chunk) : List Chunk :=
  match l.getLast? with
  | none => l
  | some last => l.dropLast ++ [f last]

/-- `ChunkBuffer.ensureLast` from buffer.ts. -/
def ChunkBuffer.ensureLast (b : ChunkBuffer) (pos : Int) (state : GrammarState) : ChunkBuffer :=
  match b.chunks.getLast? with
  | none => ⟨b.chunks ++ [Chunk.new pos state]⟩
  | some _ => b

/-- Stage 1 of `ChunkBuffer.add` (buffer.ts lines 62–68): the current
chunk (and the chunks before it), lazily created at the token's start
when the buffer is empty. -/
def addStage1 (b : ChunkBuffer) (state : GrammarState) (t : GrammarToken) :
    List Chunk × Chunk × Bool :=
  match b.chunks.getLast? with
  | none => ([], Chunk.new t.from_ state, true)
  | some cur => (b.chunks.dropLast, cur, false)

/-- Stage 2 of `ChunkBuffer.add` (lines 70–77): an open action starts a
new chunk at the current chunk's end when that chunk has content, and
the open ids are pushed onto the (possibly new) current chunk. -/
def addStage2 (state : GrammarState) (t : GrammarToken) :
    List Chunk × Chunk × Bool → List Chunk × Chunk × Bool
  | (init, cur, pushed) =>
      match t.opens with
      | some os =>
          if cur.length ≠ 0 then
            (init ++ [cur], (Chunk.new cur.to_ state).pushOpen os, true)
          else (init, cur.pushOpen os, pushed)
      | none => (init, cur, pushed)

/-- Stages 3–4 of `ChunkBuffer.add` (lines 79–88): append the token to
the current chunk; a close action records its ids and starts a fresh
chunk right after. -/
def addStage3 (state : GrammarState) (t : GrammarToken) :
    List Chunk × Chunk × Bool → ChunkBuffer × Bool
  | (init, cur, pushed) =>
      let cur2 := cur.add t.id t.from_ t.to_
      match t.closes with
      | some cs =>
          let cur3 := cur2.pushClose cs
          (⟨init ++ [cur3, Chunk.new cur3.to_ state]⟩, true)
      | none => (⟨init ++ [cur2]⟩, pushed)

/-- `ChunkBuffer.add` from buffer.ts: lazily creates the first chunk,
starts a new chunk when an open action arrives on a non-empty chunk,
appends the token, and starts a fresh chunk after any close action.
Returns the updated buffer and the `pushed` flag. -/
def ChunkBuffer.add (b : ChunkBuffer) (state : GrammarState) (t : GrammarToken) :
    ChunkBuffer × Bool :=
  addStage3 state t (addStage2 state t (addStage1 b state t))

/-- `ChunkBuffer.split` from buffer.ts (`none` models the thrown error on
an invalid index).  The left half's last chunk is stripped back to an
empty chunk with a cloned state. -/
def ChunkBuffer.split (b : ChunkBuffer) (index : Nat) :
    Option (ChunkBuffer × ChunkBuffer) :=
  if index < b.chunks.length then
    let lr : List Chunk × List Chunk :=
      if b.chunks.length ≤ 1 then (b.chunks, [])
      else (b.chunks.take (index + 1), b.chunks.drop (index + 1))
    some (⟨replaceLast lr.1 (fun c => Chunk.new c.from_ c.state)⟩, ⟨lr.2⟩)
  else none

/-- `ChunkBuffer.slide` from buffer.ts (`none` models the thrown error on
an invalid index). -/
def ChunkBuffer.slide (b : ChunkBuffer) (index : Nat) (offset : Int) (cutLeft : Bool) :
    Option ChunkBuffer :=
  if index < b.chunks.length then
    some
      (if b.chunks.length = 0 then b
       else if b.chunks.length = 1 then ⟨replaceLast b.chunks (fun c => c.offset offset)⟩
       else
         let chunks := if cutLeft then b.chunks.drop index else b.chunks
         let start := if cutLeft then 0 else index
         ⟨(chunks.zip (List.range chunks.length)).map
            (fun p => if start ≤ p.2 then p.1.offset offset else p.1)⟩)
  else none

/-- `ChunkBuffer.link` from buffer.ts.  The `if (max)` truthiness test
means a `max` of `0` disables the clamp exactly like an absent argument. -/
def ChunkBuffer.link (b : ChunkBuffer) (right : ChunkBuffer) (max? : Option Int) :
    ChunkBuffer :=
  let chunks := b.chunks ++ right.chunks
  match max? with
  | some m =>
      if m ≠ 0 then ⟨chunks.takeWhile (fun c => decide (c.to_ ≤ m))⟩ else ⟨chunks⟩
  | none => ⟨chunks⟩

/-! ## Rule matching

From src/src/grammar/rules/rule.ts.  `exec` is the abstract method the
pattern subclasses implement; in this embedding it returns the
`MatchOutput` shape (the `Matched`-returning subclasses live in the
absent `rules/state.ts`).  A rule's context setters and matchers are
plain functions; the single mutable `GrammarState` object of the source
is threaded explicitly, so the state carried by the returned `Matched`
is the state after all of the rule's mutations. -/

/-- Result of a capture function: `Node | boolean` in the source. -/
inductive CapRes where
  | node (n : Node)
  | bool (b : Bool)

/-- One entry of `Rule.captures`: a fixed `Node` or a capture function. -/
inductive CaptureItem where
  | fixed (n : Node)
  | fn (f : GrammarState → String → CapRes)

/-- Modelled from the spec: `grammar/matched.ts` is not under src.
Spec §3: "Matched: the outcome of one successful rule application — node,
matched text, absolute position, resulting GrammarState, and nested
sub-Matches for captures; supports being wrapped into a parent node
boundary."  `SubMatch` is one nested capture match (deeper nesting only
arises from the absent `rules/state.ts` subclasses). -/
structure SubMatch where
  state : GrammarState
  node : Node
  total : String
  from_ : Nat
deriving DecidableEq

/-- Modelled from the spec: `grammar/matched.ts` is not under src (see
`SubMatch`). -/
structure Matched where
  state : GrammarState
  node : Node
  total : String
  from_ : Nat
  captures : Option (List SubMatch)
  wrapping : Wrapping
deriving DecidableEq

/-- `Matched`'s match length: the length of the matched text. -/
def Matched.length (m : Matched) : Nat := m.total.length

/-- Modelled from the spec: rebases the match's position (the parser calls
`Grammar.match` with a window-relative position and the absolute position
as `offset`). -/
def Matched.offset (m : Matched) (o : Nat) : Matched := { m with from_ := o }

/-- Modelled from the spec: wraps the match into a parent node boundary
(spec §3 "Wrapping"). -/
def Matched.wrap (m : Matched) (n : Node) (w : Wrapping) : Matched :=
  { m with node := n, wrapping := w }

/-- Modelled from the spec: `grammar/matched.ts` is not under src.
Spec §3: "GrammarToken … the serialized form of a Matched, after resolving
wrapping into explicit open/close structural actions".  A FULL match is a
plain token, BEGIN opens the node, END closes it (capture sub-tokens are
not modelled; no claim depends on them). -/
def Matched.compile (m : Matched) : List GrammarToken :=
  let idOpt : Option Int := if m.node = Node.NoneN then none else some (m.node.id : Int)
  match m.wrapping with
  | Wrapping.FULL => [⟨idOpt, (m.from_ : Int), ((m.from_ + m.length : Nat) : Int), none, none⟩]
  | Wrapping.BEGIN =>
      [⟨idOpt, (m.from_ : Int), ((m.from_ + m.length : Nat) : Int), some [m.node.id], none⟩]
  | Wrapping.END =>
      [⟨idOpt, (m.from_ : Int), ((m.from_ + m.length : Nat) : Int), none, some [m.node.id]⟩]

/-- A `Rule` from rule.ts: pattern (`exec`), guards, context setters,
capture resolvers and the `rematch` flag. -/
structure Rule where
  node : Node
  lookbehind : Option (String → Nat → Bool)
  lookahead : Option (String → Nat → Bool)
  contextSetters : List (GrammarState → GrammarState)
  contextImmediate : Bool
  captures : List (Option CaptureItem)
  rematch : Bool
  exec : String → Nat → GrammarState → Option MatchOutput

/-- Runs a list of context setters in order (the setter loops of
`Rule.match`). -/
def applySetters (fs : List (GrammarState → GrammarState)) (s : GrammarState) : GrammarState :=
  fs.foldl (fun st f => f st) s

/-- The capture-resolution loop of rule.ts (lines 138–163): walks the
declared capture slots against the output's capture strings; a capture
function returning `false` vetoes the whole match (`.ok none`), a missing
capture string is the thrown `TypeError` (`.error`). -/
def resolveCapturesGo (state : GrammarState) :
    List (Option CaptureItem) → List String → Nat → List SubMatch →
    Except String (Option (List SubMatch))
  | [], _, _, acc => Except.ok (some acc)
  | _ :: _, [], _, _ => Except.error "Missing capture"
  | item :: items, cap :: caps, capturePos, acc =>
      match item with
      | none =>
          resolveCapturesGo state items caps (capturePos + cap.length)
            (acc ++ [⟨state, Node.NoneN, cap, capturePos⟩])
      | some (CaptureItem.fixed n) =>
          resolveCapturesGo state items caps (capturePos + cap.length)
            (acc ++ [⟨state, n, cap, capturePos⟩])
      | some (CaptureItem.fn f) =>
          match f state cap with
          | CapRes.bool false => Except.ok none
          | CapRes.bool true =>
              resolveCapturesGo state items caps (capturePos + cap.length)
                (acc ++ [⟨state, Node.NoneN, cap, capturePos⟩])
          | CapRes.node n =>
              resolveCapturesGo state items caps (capturePos + cap.length)
                (acc ++ [⟨state, n, cap, capturePos⟩])

/-- `Rule.resolveCaptures`: the `if (this.captures)` block of rule.ts.
`output.captures` being `null` is the thrown error of line 139. -/
def Rule.resolveCaptures (r : Rule) (state : GrammarState) (output : MatchOutput)
    (pos : Nat) : Except String (Option (List SubMatch)) :=
  match output.captures with
  | none => Except.error "Output has no captures when it should"
  | some outCaps => resolveCapturesGo state r.captures outCaps pos []

/-- `Rule.match` from rule.ts (lines 111–198), `MatchOutput` branch:
lookbehind guard, immediate context setters, `exec`, lookahead veto,
`rematch` short-circuit, capture resolution (with veto), deferred
context setters. -/
def Rule.match (r : Rule) (state : GrammarState) (str : String) (pos : Nat) :
    Except String (Option Matched) :=
  if (match r.lookbehind with | some lb => !(lb str pos) | none => false) then Except.ok none
  else
    let state1 := if r.contextImmediate then applySetters r.contextSetters state else state
    match r.exec str pos state1 with
    | none => Except.ok none
    | some output =>
        if (match r.lookahead with
            | some la => !(la str (pos + output.length))
            | none => false) then Except.ok none
        else if r.rematch then
          Except.ok (some ⟨state1, r.node, "", pos, none, Wrapping.FULL⟩)
        else
          let state2 := { state1 with last? := some output }
          if r.captures.isEmpty then
            let state3 :=
              if !r.contextImmediate then applySetters r.contextSetters state2 else state2
            Except.ok (some ⟨state3, r.node, output.total, pos, none, Wrapping.FULL⟩)
          else
            match r.resolveCaptures state2 output pos with
            | Except.error e => Except.error e
            | Except.ok none => Except.ok none
            | Except.ok (some caps) =>
                let state3 :=
                  if !r.contextImmediate then applySetters r.contextSetters state2 else state2
                Except.ok (some ⟨state3, r.node, output.total, pos, some caps, Wrapping.FULL⟩)

/-! ## Grammar

From src/unnamed/part_006 (the `Grammar` class).  Rules are held in an
arena (`rules`) and referenced by index; `root` and `globalRules` are the
index lists.  The `State`-valued stack entries of the absent
`rules/state.ts` are not modelled: stack `end`s here are pattern rules
(the `else` branch of lines 104–112 of `Grammar.match`). -/

structure Grammar where
  vars : List (String × String)
  rules : List Rule
  root : List Nat
  globalRules : List Nat
  defaultNode : Option Node

/-- `Grammar.startState` from part_006: one root frame, no variables set
beyond the grammar's own table. -/
def Grammar.startState (g : Grammar) : GrammarState :=
  ⟨g.vars, [], [⟨Node.NoneN, g.root, none⟩], none⟩

/-- The `for` loops of `Grammar.match`: try rules in order, first
successful match wins (dangling arena indices are skipped; the TS object
graph cannot produce them). -/
def Grammar.tryRules (g : Grammar) (state : GrammarState) (str : String) (pos : Nat) :
    List Nat → Except String (Option Matched)
  | [] => Except.ok none
  | i :: rest =>
      match g.rules.get? i with
      | none => Grammar.tryRules g state str pos rest
      | some r =>
          match r.match state str pos with
          | Except.error e => Except.error e
          | Except.ok (some m) => Except.ok (some m)
          | Except.ok none => Grammar.tryRules g state str pos rest

/-- `Grammar.match` from part_006 (lines 95–144): end rule of the active
frame first (wrapped as an END fragment and the frame popped), then the
frame's rules, then global fallbacks, then the single-character default. -/
def Grammar.match (g : Grammar) (state : GrammarState) (str : String) (pos : Nat)
    (offset : Nat) : Except String (Option Matched) :=
  let endResult : Except String (Option Matched) :=
    match state.stack.head? with
    | some top =>
        match top.endRule with
        | some ei =>
            match g.rules.get? ei with
            | some er =>
                (match er.match state str pos with
                 | Except.error e => Except.error e
                 | Except.ok (some result) =>
                     let result := result.wrap top.node Wrapping.END
                     let result :=
                       { result with
                         state := { result.state with stack := result.state.stack.tail } }
                     Except.ok (some (if offset ≠ pos then result.offset offset else result))
                 | Except.ok none => Except.ok none)
            | none => Except.ok none
        | none => Except.ok none
    | none => Except.ok none
  match endResult with
  | Except.error e => Except.error e
  | Except.ok (some m) => Except.ok (some m)
  | Except.ok none =>
      let rules := (state.stack.head?.map GrammarStackElement.rules).getD []
      match g.tryRules state str pos rules with
      | Except.error e => Except.error e
      | Except.ok (some result) =>
          Except.ok (some (if offset ≠ pos then result.offset offset else result))
      | Except.ok none =>
          match g.tryRules state str pos g.globalRules with
          | Except.error e => Except.error e
          | Except.ok (some result) =>
              Except.ok (some (if offset ≠ pos then result.offset offset else result))
          | Except.ok none =>
              match g.defaultNode with
              | some d =>
                  Except.ok
                    (some ⟨state, d, strSlice str pos (pos + 1), offset, none, Wrapping.FULL⟩)
              | none => Except.ok none

/-! ## Parser driver

From src/src/parser.ts.  The match-loop body (`nextChunk`, lines 277–334)
is modelled as one `parseStep`; the right-reuse attempt at the top of the
loop (`tryToReuse`) is modelled separately and skipped in `parseStep`, as
when `previousRight` is `undefined` (a fresh parse, or after the one
allowed reuse). -/

/-- Modelled from the spec: region.ts is not under src.  Spec §6: "Edit
descriptor: `{ from, to, offset }` describing the changed region and net
length delta". -/
structure Edit where
  from_ : Int
  to_ : Int
  offset : Int
deriving DecidableEq

/-- Modelled from the spec: region.ts is not under src.  The parsed
region of a contiguous single-range document: `compensate(pos, len)` is
`pos + len` and reads are plain document slices (spec §4.5; the
position-compensation only differs for non-contiguous multi-range
documents). -/
structure ParseRegion where
  from_ : Nat
  to_ : Nat
deriving DecidableEq

/-- Lines 289–300 of parser.ts: read a bounded window around `pos`
(a `MARGIN_BEFORE` margin for lookbehind, `MARGIN_AFTER` ahead, clamped
to the region) and ask the grammar for one match step. -/
def matchStep (g : Grammar) (doc : String) (region : ParseRegion) (pos : Nat)
    (st : GrammarState) : Except String (Option Matched) :=
  let start := max (pos - MARGIN_BEFORE) region.from_
  let str := strSlice doc start (min (pos + MARGIN_AFTER) region.to_)
  g.match st str (pos - start) pos

/-- The observable outcome of one iteration of the `nextChunk` loop. -/
structure StepOut where
  pos : Nat
  state : GrammarState
  buffer : ChunkBuffer
  tokens : List GrammarToken
  addedChunk : Bool
deriving DecidableEq

/-- One iteration of the `nextChunk` match loop (parser.ts lines 289–330):
window the document, match, and either take the match's tokens and
length, or force a one-character `ERROR_ADVANCE` token; then advance
`parsedPos` and push every token into the buffer with the pre-match
state snapshot. -/
def parseStep (g : Grammar) (doc : String) (region : ParseRegion) (pos : Nat)
    (st : GrammarState) (buffer : ChunkBuffer) : Except String StepOut :=
  match matchStep g doc region pos st with
  | Except.error e => Except.error e
  | Except.ok res =>
      let startState := st
      let p : GrammarState × List GrammarToken × Nat :=
        match res with
        | some m => (m.state, m.compile, m.length)
        | none =>
            (st, [⟨some (NodeID.ERROR_ADVANCE : Int), (pos : Int), ((pos + 1 : Nat) : Int),
                   none, none⟩], 1)
      let newPos := pos + p.2.2
      let folded := p.2.1.foldl
        (fun (acc : ChunkBuffer × Bool) t =>
          let r := acc.1.add startState t
          (r.1, acc.2 || r.2))
        (buffer, false)
      Except.ok ⟨newPos, p.1, folded.1, p.2.1, folded.2⟩

/-- The parser's match loop: iterate `parseStep` while `parsedPos` is
short of the region's end (fuelled; the fuel bounds the number of
steps). -/
def parseLoop (g : Grammar) (doc : String) (region : ParseRegion) :
    Nat → Nat → GrammarState → ChunkBuffer →
    Except String (Nat × GrammarState × ChunkBuffer)
  | 0, pos, st, buf => Except.ok (pos, st, buf)
  | fuel + 1, pos, st, buf =>
      if pos < region.to_ then
        match parseStep g doc region pos st buf with
        | Except.error e => Except.error e
        | Except.ok out => parseLoop g doc region fuel out.pos out.state out.buffer
      else Except.ok (pos, st, buf)

/-- The Parser fields read and written by `tryToReuse` (parser.ts lines
342–362): the current position and grammar state, the working buffer,
`region.edit` and `region.original.length`. -/
structure ParserRec where
  parsedPos : Int
  state : GrammarState
  buffer : ChunkBuffer
  editQ : Option Edit
  originalLength : Int
deriving DecidableEq

/-- The scan of `tryToReuse`'s for-loop (parser.ts lines 349–351): the
first index whose chunk is reusable against the given state/position. -/
def findReusable (state : GrammarState) (pos : Int) (offset : Int) :
    List Chunk → Nat → Option Nat
  | [], _ => none
  | c :: rest, i =>
      if c.isReusable state pos offset then some i
      else findReusable state pos offset rest (i + 1)

/-- `Parser.tryToReuse` from parser.ts (lines 342–362): bail without a
change if there is no edit descriptor or the position is not strictly
past the edited region; otherwise splice the first reusable chunk of the
ahead buffer (slide the remainder by the edit offset, link it on, clamp
to the original length, and jump position/state to the new last
chunk). -/
def Parser.tryToReuse (p : ParserRec) (right : ChunkBuffer) : Bool × ParserRec :=
  match p.editQ with
  | none => (false, p)
  | some edit =>
      if p.parsedPos ≤ edit.to_ then (false, p)
      else
        match findReusable p.state p.parsedPos edit.offset right.chunks 0 with
        | none => (false, p)
        | some idx =>
            let right1 := (right.slide idx edit.offset true).getD right
            let buf1 := p.buffer.link right1 (some p.originalLength)
            let buf2 := buf1.ensureLast p.parsedPos p.state
            match buf2.chunks.getLast? with
            | some lc =>
                (true, { p with buffer := buf2, state := lc.state, parsedPos := lc.from_ })
            | none => (true, { p with buffer := buf2 })

/-! ## Compile stack and compiler

From src/src/compiler/stack.ts and the `Compiler` class (compiler.ts).
The stack's three typed arrays have the fixed capacity
`COMPILER_STACK_SIZE = 64`; the model keeps JS semantics exactly: stores
past the end are dropped, loads past the end give `none` (`undefined`),
and element stores wrap (`Uint16Array` mod 2^16, `Uint32Array` mod
2^32). -/

/-- A store into a fixed-length JS typed array: out-of-range writes are
dropped (`List.set` is the identity there), values wrap by the element
coercion. -/
def tarrSet (l : List Nat) (i : Nat) (v : Nat) (m : Nat) : List Nat :=
  l.set i (v % m)

/-- `CompileStack` from stack.ts. -/
structure CompileStack where
  ids : List Nat
  positions : List Nat
  children : List Nat
  length : Nat
deriving DecidableEq

/-- The `CompileStack` constructor: three zeroed arrays of capacity 64. -/
def CompileStack.new : CompileStack :=
  ⟨List.replicate COMPILER_STACK_SIZE 0, List.replicate COMPILER_STACK_SIZE 0,
   List.replicate COMPILER_STACK_SIZE 0, 0⟩

/-- The arrays have their constructed capacity (every reachable
`CompileStack` satisfies this; `List.set` preserves it). -/
def CompileStack.wf (st : CompileStack) : Prop :=
  st.ids.length = COMPILER_STACK_SIZE ∧ st.positions.length = COMPILER_STACK_SIZE ∧
    st.children.length = COMPILER_STACK_SIZE

/-- `CompileStack.increment`: add a child to every element below
`length` (a `Uint16Array` increment wraps mod 2^16; indices past the
array's capacity are JS no-ops). -/
def CompileStack.increment (st : CompileStack) : CompileStack :=
  { st with
    children := (st.children.zip (List.range st.children.length)).map
      (fun p => if p.2 < st.length then (p.1 + 1) % 65536 else p.1) }

/-- `CompileStack.push` from stack.ts: write the frame at index `length`
(silently dropped when the arrays are full) and increment `length`. -/
def CompileStack.push (st : CompileStack) (id : Nat) (start : Int) (children : Nat) :
    CompileStack :=
  { st with
    ids := tarrSet st.ids st.length id 65536,
    positions := st.positions.set st.length ((start % 4294967296).toNat),
    children := tarrSet st.children st.length children 65536,
    length := st.length + 1 }

/-- `CompileStack.pop` from stack.ts: read the frame at `length - 1`
(`none` = JS `undefined` on an out-of-range read) and decrement
`length`.  The compiler only pops non-empty stacks. -/
def CompileStack.pop (st : CompileStack) :
    (Option Nat × Option Nat × Option Nat) × CompileStack :=
  ((if st.length = 0 then none else st.ids.get? (st.length - 1),
    if st.length = 0 then none else st.positions.get? (st.length - 1),
    if st.length = 0 then none else st.children.get? (st.length - 1)),
   { st with length := st.length - 1 })

/-- `CompileStack.close` from stack.ts: drop every element past `idx`. -/
def CompileStack.close (st : CompileStack) (idx : Nat) : CompileStack :=
  { st with length := idx + 1 }

/-- `CompileStack.last` from stack.ts: scan `0 ≤ i < length` keeping the
last index whose id matches (out-of-capacity reads are `undefined` and
never match). -/
def CompileStack.last (st : CompileStack) (id : Nat) : Option Nat :=
  (List.range st.length).foldl
    (fun acc i => if st.ids.get? i = some id then some i else acc) none

/-- One record of the compiler's output buffer:
`[type, from, to, children]`. -/
structure Rec4 where
  typ : Int
  from_ : Int
  to_ : Int
  children : Int
deriving DecidableEq

/-- The `Compiler`'s mutable pieces (compiler.ts): the compile stack, the
`compiled`/`size` record buffer (an `Int32Array`, modelled as the list of
its records), and `reused.length`. -/
structure Compiler where
  stack : CompileStack
  compiled : List Rec4
  reused : Nat
deriving DecidableEq

/-- `Compiler.emit`: append one record (with the `Int32Array` store
coercion) and add a child to every still-open frame. -/
def Compiler.emit (c : Compiler) (type from_ to_ children : Int) : Compiler :=
  { c with
    compiled := c.compiled ++ [⟨toInt32 type, toInt32 from_, toInt32 to_, toInt32 children⟩],
    stack := c.stack.increment }

/-- `children * 4 + 4` on a possibly-`undefined` popped value (JS NaN
arithmetic, stored as 0 by the `Int32Array`). -/
def jsChildSpan (o : Option Nat) : Int :=
  match o with
  | some k => (k : Int) * 4 + 4
  | none => 0

/-- One iteration of the close loop of `Compiler.parse` (compiler.ts
lines 155–173): find the most recently pushed frame with this id; if
there is one, discard everything past it, pop it, and emit the parent
node record spanning from its recorded start to the chunk's end. -/
def Compiler.processClose (c : Compiler) (id : Nat) (to_ : Int) : Compiler :=
  match c.stack.last id with
  | none => c
  | some idx =>
      let st1 := c.stack.close idx
      let pr := st1.pop
      let c1 : Compiler := { c with stack := pr.2 }
      c1.emit (jsIntOf pr.1.1) (jsIntOf pr.1.2.1) to_ (jsChildSpan pr.1.2.2)

/-- `Compiler.parse` (compiler.ts lines 122–175): a memoizable chunk
emits one reused-tree placeholder record; otherwise push a frame per
open id, emit the chunk's tokens as leaf records, then process the close
ids.  `tryForTree` caches `canConvertToTree`, so the fast-path test is
that predicate. -/
def Compiler.parseChunk (c : Compiler) (chunk : Chunk) : Compiler :=
  let from_ := chunk.from_
  let to_ := chunk.to_
  if chunk.canConvertToTree then
    { c.emit (c.reused : Int) from_ to_ (-1) with reused := c.reused + 1 }
  else
    let c :=
      match chunk.opens with
      | some os => os.foldl (fun acc i => { acc with stack := acc.stack.push i from_ 0 }) c
      | none => c
    let c := (List.range chunk.size).foldl
      (fun acc i =>
        acc.emit ((chunk.tokens.get? (3 * i)).getD 0)
          (from_ + (chunk.tokens.get? (3 * i + 1)).getD 0)
          (from_ + (chunk.tokens.get? (3 * i + 2)).getD 0) 4)
      c
    match chunk.closes with
    | some cs => cs.foldl (fun acc id => acc.processClose id to_) c
    | none => c

/-- The `FINISH_INCOMPLETE_NODES` loop of `Compiler.compile` (compiler.ts
lines 198–211): while frames remain open, emit an `ERROR_INCOMPLETE`
marker at the document's end position and force-close the topmost frame
there. -/
def Compiler.finishLoop (c : Compiler) (len : Int) : Compiler :=
  if _h : 0 < c.stack.length then
    let c1 := c.emit (NodeID.ERROR_INCOMPLETE : Int) len len 4
    let pr := c1.stack.pop
    let c2 : Compiler := { c1 with stack := pr.2 }
    let c3 := c2.emit (jsIntOf pr.1.1) (jsIntOf pr.1.2.1) len (jsChildSpan pr.1.2.2)
    Compiler.finishLoop c3 len
  else c
termination_by c.stack.length
decreasing_by
  simp [Compiler.emit, CompileStack.pop, CompileStack.increment]
  omega

/-- `Compiler.compile` without the external `Tree.build` call: the
empty-buffer early return, `advanceFully`, and the incomplete-node
finishing pass. -/
def Compiler.run (c : Compiler) (chunks : List Chunk) (len : Int) : Compiler :=
  if chunks.isEmpty then c
  else
    let c := chunks.foldl Compiler.parseChunk c
    if FINISH_INCOMPLETE_NODES then c.finishLoop len else c

/-! ## Shared concrete instances and small lemmas -/

/-- An empty grammar state, used to instantiate concrete buffers. -/
def stEmpty : GrammarState := ⟨[], [], [], none⟩

/-- A literal-string matcher (the `StringMatcher` pattern), used to
instantiate `Rule.exec` concretely. -/
def litExec (lit : String) : String → Nat → GrammarState → Option MatchOutput :=
  fun str pos _ =>
    if strSlice str pos (pos + lit.length) = lit then some ⟨lit, none, lit.length⟩
    else none

theorem toInt32_eq_self {n : Int} (h1 : -2147483648 ≤ n) (h2 : n < 2147483648) :
    toInt32 n = n := by
  unfold toInt32
  omega

theorem toInt16_eq_self_iff (v : Int) : toInt16 v = v ↔ -32768 ≤ v ∧ v < 32768 := by
  unfold toInt16
  omega

/-! ## C10 — Chunk token storage is Int16-wrapped -/

/-- C10: `Chunk.add` stores each token's id and chunk-relative from/to in
an `Int16Array`, i.e. through the `ToInt16` wrap: the stored triple
round-trips to the original values exactly when each fits in a signed
16-bit integer, and a chunk-relative position past 32767 (such as 40000)
is stored wrapped modulo 2^16 (as −25536), not rejected. -/
theorem chunk_add_int16_wrap :
    (∀ (c : Chunk) (i from_ to_ : Int),
        (c.add (some i) from_ to_).tokens =
          c.tokens ++ [toInt16 i, toInt16 (from_ - c.from_), toInt16 (to_ - c.from_)]) ∧
    (∀ v : Int, toInt16 v = v ↔ -32768 ≤ v ∧ v < 32768) ∧
    ((Chunk.new 0 stEmpty).add (some 1) 40000 40001).tokens = [1, -25536, -25535] ∧
    toInt16 40000 ≠ (40000 : Int) := by
  refine ⟨?_, toInt16_eq_self_iff, by decide, by decide⟩
  intro c i from_ to_
  unfold Chunk.add
  split <;> rfl

/-! ## C9 — CompileStack fixed capacity -/

/-- C9: the `CompileStack` has fixed capacity `COMPILER_STACK_SIZE = 64`
and `push` does no bounds checking.  Below capacity, `push` then `pop`
returns exactly the pushed frame and restores the length; at 64 open
frames, a further `push` silently drops the frame data (all three arrays
are unchanged) while still incrementing `length` to 65, and the
push/pop round trip returns `undefined`s instead of the pushed values. -/
theorem compileStack_capacity :
    (∀ (st : CompileStack) (id children : Nat) (start : Int),
        st.wf → st.length < 64 → id < 65536 → children < 65536 →
        0 ≤ start → start < 4294967296 →
        ((st.push id start children).pop).1 = (some id, some start.toNat, some children) ∧
        ((st.push id start children).pop).2.length = st.length) ∧
    (∀ (st : CompileStack) (id children : Nat) (start : Int),
        st.wf → st.length = 64 →
        (st.push id start children).length = 65 ∧
        (st.push id start children).ids = st.ids ∧
        (st.push id start children).positions = st.positions ∧
        (st.push id start children).children = st.children ∧
        ((st.push id start children).pop).1 = (none, none, none)) := by
  constructor
  · intro st id children start hwf hlt hid hch hs0 hs1
    obtain ⟨hi, hp, hc⟩ := hwf
    have hmod : id % 65536 = id := Nat.mod_eq_of_lt hid
    have hmodc : children % 65536 = children := Nat.mod_eq_of_lt hch
    have hpos : (start % 4294967296) = start := by omega
    unfold CompileStack.push CompileStack.pop tarrSet
    simp only [COMPILER_STACK_SIZE] at hi hp hc
    simp [List.get?_set_eq, hi, hp, hc, hlt, hmod, hmodc, hpos, Nat.add_sub_cancel]
  · intro st id children start hwf hlen
    obtain ⟨hi, hp, hc⟩ := hwf
    simp only [COMPILER_STACK_SIZE] at hi hp hc
    have hsi : st.ids.set st.length (id % 65536) = st.ids :=
      List.set_eq_of_length_le (by omega)
    have hsp : st.positions.set st.length (((start % 4294967296)).toNat) = st.positions :=
      List.set_eq_of_length_le (by omega)
    have hsc : st.children.set st.length (children % 65536) = st.children :=
      List.set_eq_of_length_le (by omega)
    unfold CompileStack.push CompileStack.pop tarrSet
    refine ⟨by show st.length + 1 = 65; omega, hsi, hsp, hsc, ?_⟩
    simp [hsi, hsp, hsc, hlen]
    omega

/-- Witness for `compileStack_capacity` at concrete stacks: a fresh stack
(length 0) and a stack at capacity (length 64). -/
theorem compileStack_capacity_witness :
    ((CompileStack.new.push 5 7 9).pop).1 = (some 5, some 7, some 9) ∧
    (({ CompileStack.new with length := 64 } : CompileStack).push 5 7 9).length = 65 ∧
    ((({ CompileStack.new with length := 64 } : CompileStack).push 5 7 9).pop).1 =
      (none, none, none) := by
  refine ⟨?_, ?_, ?_⟩
  · have h := (compileStack_capacity.1 CompileStack.new 5 9 7 ⟨rfl, rfl, rfl⟩ (by decide)
      (by decide) (by decide) (by decide) (by decide)).1
    simpa using h
  · exact (compileStack_capacity.2 { CompileStack.new with length := 64 } 5 9 7
      ⟨rfl, rfl, rfl⟩ rfl).1
  · exact (compileStack_capacity.2 { CompileStack.new with length := 64 } 5 9 7
      ⟨rfl, rfl, rfl⟩ rfl).2.2.2.2

/-! ## C8 — lookahead is a zero-width veto -/

/-- C8: for a rule with a lookahead, if the underlying pattern matches at
`pos` but the lookahead fails on the text immediately following the
matched span, `Rule.match` returns null — the whole rule fails even
though the pattern matched (the lookbehind, when present, is assumed to
have passed, as otherwise the pattern is never tried). -/
theorem rule_lookahead_veto (r : Rule) (la : String → Nat → Bool) (st : GrammarState)
    (str : String) (pos : Nat) (out : MatchOutput)
    (hla : r.lookahead = some la)
    (hlb : match r.lookbehind with | some lb => lb str pos = true | none => True)
    (hexec :
      r.exec str pos (if r.contextImmediate then applySetters r.contextSetters st else st) =
        some out)
    (hfail : la str (pos + out.length) = false) :
    r.match st str pos = Except.ok none := by
  unfold Rule.match
  cases hLB : r.lookbehind with
  | none => simp [hexec, hla, hfail]
  | some lb =>
      rw [hLB] at hlb
      simp [hLB, hlb, hexec, hla, hfail]

/-- A concrete rule whose pattern is the literal `"a"` and whose
lookahead requires the next character to be `"b"`. -/
def exRuleLA : Rule :=
  ⟨⟨5, "x"⟩, none, some (fun s p => decide (strSlice s p (p + 1) = "b")), [], false, [],
   false, litExec "a"⟩

/-- Witness for `rule_lookahead_veto`: on `"ac"` the pattern `"a"`
matches at 0 but the lookahead sees `"c"`, so the rule fails. -/
theorem rule_lookahead_veto_witness :
    exRuleLA.match stEmpty "ac" 0 = Except.ok none ∧
    exRuleLA.exec "ac" 0 stEmpty = some ⟨"a", none, 1⟩ :=
  ⟨rule_lookahead_veto exRuleLA _ stEmpty "ac" 0 ⟨"a", none, 1⟩ rfl trivial (by decide)
    (by decide), by decide⟩

/-! ## C5 — right-reuse is guarded -/

theorem findReusable_spec (state : GrammarState) (pos offset : Int) :
    ∀ (l : List Chunk) (i idx : Nat), findReusable state pos offset l i = some idx →
      i ≤ idx ∧ ∃ c, l.get? (idx - i) = some c ∧ c.isReusable state pos offset = true := by
  intro l
  induction l with
  | nil => intro i idx h; simp [findReusable] at h
  | cons c rest ih =>
      intro i idx h
      unfold findReusable at h
      by_cases hc : c.isReusable state pos offset
      · rw [if_pos hc] at h
        obtain rfl : i = idx := by simpa using h
        exact ⟨le_rfl, c, by simp, hc⟩
      · rw [if_neg hc] at h
        obtain ⟨hle, d, hd, hr⟩ := ih (i + 1) idx h
        refine ⟨by omega, d, ?_, hr⟩
        have : idx - i = (idx - (i + 1)) + 1 := by omega
        rw [this]
        simpa using hd

/-- Reusability, as `Chunk.isReusable` checks it: position-corrected
start equals the current position, and cached state equals the current
state. -/
theorem isReusable_iff (c : Chunk) (state : GrammarState) (pos offset : Int) :
    c.isReusable state pos offset = true ↔
      c.from_ + offset = pos ∧ state.equals c.state = true := by
  unfold Chunk.isReusable
  by_cases h1 : c.from_ + offset = pos
  · by_cases h2 : state.equals c.state
    · simp [h1, h2]
    · simp [h1, h2]
  · simp [h1]

/-- C5: the parser never splices a stale ahead buffer at or before the
edited region's end.  `tryToReuse` returns `false` leaving the whole
parser untouched when there is no edit descriptor, or when the current
position is not strictly past `edit.to`; and when it does splice
(returns `true`), the chunk it spliced satisfies
`chunk.from + edit.offset = parsedPos` and has a cached state equal to
the current `GrammarState`. -/
theorem parser_tryToReuse_guarded (p : ParserRec) (right : ChunkBuffer) :
    (p.editQ = none → Parser.tryToReuse p right = (false, p)) ∧
    (∀ e, p.editQ = some e → p.parsedPos ≤ e.to_ →
        Parser.tryToReuse p right = (false, p)) ∧
    (∀ e, p.editQ = some e → (Parser.tryToReuse p right).1 = true →
        ∃ idx c, right.chunks.get? idx = some c ∧ c.from_ + e.offset = p.parsedPos ∧
          p.state.equals c.state = true) := by
  refine ⟨?_, ?_, ?_⟩
  · intro h
    unfold Parser.tryToReuse
    rw [h]
  · intro e he hle
    unfold Parser.tryToReuse
    rw [he]
    simp [hle]
  · intro e he htrue
    unfold Parser.tryToReuse at htrue
    rw [he] at htrue
    by_cases hle : p.parsedPos ≤ e.to_
    · exfalso
      simp [hle] at htrue
    · cases hf : findReusable p.state p.parsedPos e.offset right.chunks 0 with
      | none =>
          exfalso
          simp [hle, hf] at htrue
      | some idx =>
          obtain ⟨-, c, hc, hr⟩ := findReusable_spec p.state p.parsedPos e.offset
            right.chunks 0 idx hf
          rw [isReusable_iff] at hr
          exact ⟨idx, c, by simpa using hc, hr.1, hr.2⟩

/-- A one-chunk ahead buffer at position 5 with the empty state. -/
def exRightBuf : ChunkBuffer := ⟨[Chunk.new 5 stEmpty]⟩

/-- A parser about to match at position 5, past an edit ending at 2. -/
def exParserRec : ParserRec := ⟨5, stEmpty, ⟨[]⟩, some ⟨1, 2, 0⟩, 10⟩

/-- Witness for `parser_tryToReuse_guarded`: with no edit the parser is
untouched; with an edit ending before the position, the spliced chunk
starts exactly at the corrected position with an equal state. -/
theorem parser_tryToReuse_guarded_witness :
    Parser.tryToReuse { exParserRec with editQ := none } exRightBuf =
      (false, { exParserRec with editQ := none }) ∧
    (∃ idx c, exRightBuf.chunks.get? idx = some c ∧ c.from_ + (0 : Int) = 5 ∧
      stEmpty.equals c.state = true) := by
  constructor
  · exact (parser_tryToReuse_guarded { exParserRec with editQ := none } exRightBuf).1 rfl
  · exact (parser_tryToReuse_guarded exParserRec exRightBuf).2.2 ⟨1, 2, 0⟩ rfl (by decide)

/-! ## C4 — split/link position round trip -/

theorem replaceLast_length (l : List Chunk) (f : Chunk → Chunk) :
    (replaceLast l f).length = l.length := by
  unfold replaceLast
  cases h : l.getLast? with
  | none => rfl
  | some last =>
      have hne : l ≠ [] := by
        intro he
        subst he
        simp at h
      have hpos : 0 < l.length := List.length_pos.2 hne
      simp [List.length_dropLast]
      omega

theorem replaceLast_map_from (l : List Chunk) (f : Chunk → Chunk)
    (hf : ∀ c, (f c).from_ = c.from_) :
    (replaceLast l f).map Chunk.from_ = l.map Chunk.from_ := by
  unfold replaceLast
  cases h : l.getLast? with
  | none => rfl
  | some last =>
      have hne : l ≠ [] := by
        intro he
        subst he
        simp at h
      have hlast : l.getLast hne = last := by
        rw [List.getLast?_eq_getLast l hne, Option.some_inj] at h
        exact h
      conv_rhs => rw [← List.dropLast_append_getLast hne]
      rw [List.map_append, List.map_append, hlast]
      simp [hf]

/-- C4: for every valid index `i`, `split i` yields a left half holding
chunks `[0..i]` with the last one's token list cleared (an empty chunk
with the same `from` and a cloned state) and a right half holding the
remaining chunks untouched; re-`link`ing the halves (no `max`) restores
the chunk count and the chunk-for-chunk `from` positions. -/
theorem chunkBuffer_split_link_roundtrip (b : ChunkBuffer) (i : Nat)
    (h : i < b.chunks.length) :
    ∃ l r, b.split i = some (l, r) ∧
      l.chunks = replaceLast (b.chunks.take (i + 1)) (fun c => Chunk.new c.from_ c.state) ∧
      r.chunks = b.chunks.drop (i + 1) ∧
      (l.link r none).chunks.length = b.chunks.length ∧
      (l.link r none).chunks.map Chunk.from_ = b.chunks.map Chunk.from_ := by
  have hfrom : ∀ c : Chunk, ((fun c : Chunk => Chunk.new c.from_ c.state) c).from_ = c.from_ :=
    fun c => rfl
  unfold ChunkBuffer.split
  rw [if_pos h]
  by_cases hle : b.chunks.length ≤ 1
  · have hi : i = 0 := by omega
    subst hi
    have htake : b.chunks.take 1 = b.chunks := List.take_of_length_le hle
    have hdrop : b.chunks.drop 1 = [] := by
      apply List.drop_eq_nil_of_le
      exact hle
    refine ⟨_, _, rfl, ?_, ?_, ?_, ?_⟩
    · simp only [if_pos hle]
      rw [htake]
    · simp only [if_pos hle]
      exact hdrop.symm
    · simp only [if_pos hle, ChunkBuffer.link]
      simp [replaceLast_length]
    · simp only [if_pos hle, ChunkBuffer.link]
      simp [replaceLast_map_from _ _ hfrom]
  · refine ⟨_, _, rfl, ?_, ?_, ?_, ?_⟩
    · simp only [if_neg hle]
    · simp only [if_neg hle]
    · simp only [if_neg hle, ChunkBuffer.link]
      simp [replaceLast_length, List.length_take, List.length_drop]
      omega
    · simp only [if_neg hle, ChunkBuffer.link, List.map_append,
        replaceLast_map_from _ _ hfrom]
      rw [← List.map_append, List.take_append_drop]

/-- A three-chunk buffer at positions 0, 2, 5. -/
def exBuf3 : ChunkBuffer :=
  ⟨[Chunk.new 0 stEmpty, Chunk.new 2 stEmpty, Chunk.new 5 stEmpty]⟩

/-- Witness for `chunkBuffer_split_link_roundtrip` at index 1 of a
three-chunk buffer. -/
theorem chunkBuffer_split_link_roundtrip_witness :
    ∃ l r, exBuf3.split 1 = some (l, r) ∧
      l.chunks =
        replaceLast (exBuf3.chunks.take 2) (fun c => Chunk.new c.from_ c.state) ∧
      r.chunks = exBuf3.chunks.drop 2 ∧
      (l.link r none).chunks.length = exBuf3.chunks.length ∧
      (l.link r none).chunks.map Chunk.from_ = exBuf3.chunks.map Chunk.from_ :=
  chunkBuffer_split_link_roundtrip exBuf3 1 (by decide)

/-! ## C3 — ChunkBuffer.add ingestion behaviour -/

theorem getLast?_dropLast_append {α : Type} {l : List α} {a : α}
    (h : l.getLast? = some a) : l.dropLast ++ [a] = l := by
  have hne : l ≠ [] := by
    intro he
    subst he
    simp at h
  have hlast : l.getLast hne = a := by
    rw [List.getLast?_eq_getLast l hne, Option.some_inj] at h
    exact h
  rw [← hlast]
  exact List.dropLast_append_getLast hne

theorem Chunk.add_from (c : Chunk) (id : Option Int) (f t : Int) :
    (c.add id f t).from_ = c.from_ := by
  unfold Chunk.add
  cases id <;> split <;> rfl

theorem Chunk.pushOpen_from (c : Chunk) (os : List Nat) :
    (c.pushOpen os).from_ = c.from_ := rfl

theorem Chunk.pushClose_from (c : Chunk) (cs : List Nat) :
    (c.pushClose cs).from_ = c.from_ := rfl


theorem Chunk.new_from (p : Int) (st : GrammarState) : (Chunk.new p st).from_ = p := rfl

theorem Chunk.new_length (p : Int) (st : GrammarState) : (Chunk.new p st).length = 0 := rfl

theorem addStage1_empty (b : ChunkBuffer) (state : GrammarState) (t : GrammarToken)
    (hL : b.chunks.getLast? = none) :
    addStage1 b state t = ([], Chunk.new t.from_ state, true) := by
  unfold addStage1
  rw [hL]

theorem addStage1_last (b : ChunkBuffer) (state : GrammarState) (t : GrammarToken)
    (cur : Chunk) (hL : b.chunks.getLast? = some cur) :
    addStage1 b state t = (b.chunks.dropLast, cur, false) := by
  unfold addStage1
  rw [hL]

theorem addStage2_none (state : GrammarState) (t : GrammarToken) (init : List Chunk)
    (cur : Chunk) (pushed : Bool) (hO : t.opens = none) :
    addStage2 state t (init, cur, pushed) = (init, cur, pushed) := by
  unfold addStage2
  rw [hO]

theorem addStage2_open_content (state : GrammarState) (t : GrammarToken)
    (init : List Chunk) (cur : Chunk) (pushed : Bool) (os : List Nat)
    (hO : t.opens = some os) (hlen : cur.length ≠ 0) :
    addStage2 state t (init, cur, pushed) =
      (init ++ [cur], (Chunk.new cur.to_ state).pushOpen os, true) := by
  simp [addStage2, hO, hlen]

theorem addStage2_open_empty (state : GrammarState) (t : GrammarToken)
    (init : List Chunk) (cur : Chunk) (pushed : Bool) (os : List Nat)
    (hO : t.opens = some os) (hlen : ¬cur.length ≠ 0) :
    addStage2 state t (init, cur, pushed) = (init, cur.pushOpen os, pushed) := by
  simp [addStage2, hO, hlen]

theorem addStage3_noclose (state : GrammarState) (t : GrammarToken) (init : List Chunk)
    (cur : Chunk) (pushed : Bool) (hC : t.closes = none) :
    addStage3 state t (init, cur, pushed) =
      (⟨init ++ [cur.add t.id t.from_ t.to_]⟩, pushed) := by
  unfold addStage3
  rw [hC]

theorem addStage3_close (state : GrammarState) (t : GrammarToken) (init : List Chunk)
    (cur : Chunk) (pushed : Bool) (cs : List Nat) (hC : t.closes = some cs) :
    addStage3 state t (init, cur, pushed) =
      (⟨init ++ [(cur.add t.id t.from_ t.to_).pushClose cs,
          Chunk.new ((cur.add t.id t.from_ t.to_).pushClose cs).to_ state]⟩, true) := by
  unfold addStage3
  rw [hC]

set_option maxRecDepth 4096 in
/-- C3: `ChunkBuffer.add(state, token)`: (1) on an empty buffer the first
chunk is created at the token's start position; (2) when the token
carries open actions and the current last chunk has content, a new chunk
starting at that chunk's end is created, receiving the open actions and
the token (plus a fresh trailing chunk if the token also closes); (3)
when the token carries close actions, the buffer ends with a fresh empty
chunk started right after the appended token; (4) the returned flag is
`true` exactly when at least one new chunk was created. -/
theorem chunkBuffer_add_spec (b : ChunkBuffer) (st : GrammarState) (t : GrammarToken) :
    (b.chunks = [] → ((b.add st t).1.chunks.head?).map Chunk.from_ = some t.from_) ∧
    (∀ os cur, t.opens = some os → b.chunks.getLast? = some cur → cur.length ≠ 0 →
      (t.closes = none →
        (b.add st t).1.chunks =
          b.chunks ++ [((Chunk.new cur.to_ st).pushOpen os).add t.id t.from_ t.to_]) ∧
      (∀ cs, t.closes = some cs →
        (b.add st t).1.chunks =
          b.chunks ++
            [(((Chunk.new cur.to_ st).pushOpen os).add t.id t.from_ t.to_).pushClose cs,
             Chunk.new
               ((((Chunk.new cur.to_ st).pushOpen os).add t.id t.from_ t.to_).pushClose
                   cs).to_ st]) ∧
      (b.add st t).2 = true) ∧
    (∀ cs, t.closes = some cs →
      ((b.add st t).1.chunks.getLast?).map (fun c => (c.length, c.tokens, c.size)) =
        some (0, [], 0) ∧
      (b.add st t).2 = true) ∧
    ((b.add st t).2 = true ↔ b.chunks.length < (b.add st t).1.chunks.length) := by
  refine ⟨?_, ?_, ?_, ?_⟩
  · intro hemp
    have hL : b.chunks.getLast? = none := by simp [hemp]
    unfold ChunkBuffer.add
    rw [addStage1_empty b st t hL]
    cases hO : t.opens with
    | none =>
        rw [addStage2_none st t _ _ _ hO]
        cases hC : t.closes with
        | none =>
            rw [addStage3_noclose st t _ _ _ hC]
            simp [Chunk.add_from, Chunk.new_from]
        | some cs =>
            rw [addStage3_close st t _ _ _ cs hC]
            simp [Chunk.add_from, Chunk.pushClose_from, Chunk.new_from]
    | some os =>
        rw [addStage2_open_empty st t _ _ _ os hO (by simp [Chunk.new_length])]
        cases hC : t.closes with
        | none =>
            rw [addStage3_noclose st t _ _ _ hC]
            simp [Chunk.add_from, Chunk.pushOpen_from, Chunk.new_from]
        | some cs =>
            rw [addStage3_close st t _ _ _ cs hC]
            simp [Chunk.add_from, Chunk.pushOpen_from, Chunk.pushClose_from, Chunk.new_from]
  · intro os cur hO hL hlen
    have hdl : b.chunks.dropLast ++ [cur] = b.chunks := getLast?_dropLast_append hL
    refine ⟨?_, ?_, ?_⟩
    · intro hC
      unfold ChunkBuffer.add
      rw [addStage1_last b st t cur hL, addStage2_open_content st t _ _ _ os hO hlen,
        addStage3_noclose st t _ _ _ hC]
      rw [← hdl]
      simp
    · intro cs hC
      unfold ChunkBuffer.add
      rw [addStage1_last b st t cur hL, addStage2_open_content st t _ _ _ os hO hlen,
        addStage3_close st t _ _ _ cs hC]
      rw [← hdl]
      simp
    · unfold ChunkBuffer.add
      rw [addStage1_last b st t cur hL, addStage2_open_content st t _ _ _ os hO hlen]
      cases hC : t.closes with
      | none => rw [addStage3_noclose st t _ _ _ hC]
      | some cs => rw [addStage3_close st t _ _ _ cs hC]
  · intro cs hC
    unfold ChunkBuffer.add
    rcases h12 : addStage2 st t (addStage1 b st t) with ⟨init, cur, pushed⟩
    rw [addStage3_close st t init cur pushed cs hC]
    constructor
    · rw [show init ++ [(cur.add t.id t.from_ t.to_).pushClose cs,
          Chunk.new ((cur.add t.id t.from_ t.to_).pushClose cs).to_ st] =
          (init ++ [(cur.add t.id t.from_ t.to_).pushClose cs]) ++
            [Chunk.new ((cur.add t.id t.from_ t.to_).pushClose cs).to_ st] by
        simp]
      rw [List.getLast?_concat]
      rfl
    · rfl
  · unfold ChunkBuffer.add
    cases hL : b.chunks.getLast? with
    | none =>
        have hemp : b.chunks = [] := by
          cases hb : b.chunks with
          | nil => rfl
          | cons x xs => rw [hb] at hL; simp at hL
        rw [addStage1_empty b st t hL]
        cases hO : t.opens with
        | none =>
            rw [addStage2_none st t _ _ _ hO]
            cases hC : t.closes with
            | none => rw [addStage3_noclose st t _ _ _ hC]; simp [hemp]
            | some cs => rw [addStage3_close st t _ _ _ cs hC]; simp [hemp]
        | some os =>
            rw [addStage2_open_empty st t _ _ _ os hO (by simp [Chunk.new_length])]
            cases hC : t.closes with
            | none => rw [addStage3_noclose st t _ _ _ hC]; simp [hemp]
            | some cs => rw [addStage3_close st t _ _ _ cs hC]; simp [hemp]
    | some cur =>
        have hne : b.chunks ≠ [] := by
          intro he
          rw [he] at hL
          simp at hL
        have hpos : 0 < b.chunks.length := List.length_pos.2 hne
        rw [addStage1_last b st t cur hL]
        cases hO : t.opens with
        | none =>
            rw [addStage2_none st t _ _ _ hO]
            cases hC : t.closes with
            | none =>
                rw [addStage3_noclose st t _ _ _ hC]
                simp <;> omega
            | some cs =>
                rw [addStage3_close st t _ _ _ cs hC]
                simp <;> omega
        | some os =>
            by_cases hlen : cur.length ≠ 0
            · rw [addStage2_open_content st t _ _ _ os hO hlen]
              cases hC : t.closes with
              | none =>
                  rw [addStage3_noclose st t _ _ _ hC]
                  simp <;> omega
              | some cs =>
                  rw [addStage3_close st t _ _ _ cs hC]
                  simp <;> omega
            · rw [addStage2_open_empty st t _ _ _ os hO hlen]
              cases hC : t.closes with
              | none =>
                  rw [addStage3_noclose st t _ _ _ hC]
                  simp <;> omega
              | some cs =>
                  rw [addStage3_close st t _ _ _ cs hC]
                  simp <;> omega

/-- A one-chunk buffer whose chunk spans `[0, 2)` and holds one token. -/
def exAddCur : Chunk := (Chunk.new 0 stEmpty).add (some 1) 0 2

def exAddBuf : ChunkBuffer := ⟨[exAddCur]⟩

/-- A token spanning `[2, 4)` that both opens and closes node 7. -/
def exAddTok : GrammarToken := ⟨some 3, 2, 4, some [7], some [7]⟩

/-- Witness for `chunkBuffer_add_spec`: the lazy first chunk on an empty
buffer, and an open+close token arriving on a non-empty chunk. -/
theorem chunkBuffer_add_spec_witness :
    ((ChunkBuffer.mk []).add stEmpty ⟨some 1, 5, 6, none, none⟩).1.chunks.head?.map
        Chunk.from_ = some 5 ∧
    (exAddBuf.add stEmpty exAddTok).1.chunks =
      exAddBuf.chunks ++
        [(((Chunk.new exAddCur.to_ stEmpty).pushOpen [7]).add (some 3) 2 4).pushClose [7],
         Chunk.new
           ((((Chunk.new exAddCur.to_ stEmpty).pushOpen [7]).add (some 3) 2 4).pushClose
               [7]).to_ stEmpty] ∧
    ((exAddBuf.add stEmpty exAddTok).2 = true ↔
      exAddBuf.chunks.length < (exAddBuf.add stEmpty exAddTok).1.chunks.length) := by
  refine ⟨?_, ?_, ?_⟩
  · exact (chunkBuffer_add_spec ⟨[]⟩ stEmpty ⟨some 1, 5, 6, none, none⟩).1 rfl
  · exact ((chunkBuffer_add_spec exAddBuf stEmpty exAddTok).2.1 [7] exAddCur rfl rfl
      (by decide)).2.1 [7] rfl
  · exact (chunkBuffer_add_spec exAddBuf stEmpty exAddTok).2.2.2

/-! ## C6 — close pairing discards inner frames -/

/-- `CompileStack.last` finds the greatest in-range index whose stored id
matches: it is below `length`, it matches, and no later in-range index
matches. -/
theorem compileStack_last_spec (st : CompileStack) (id : Nat) (idx : Nat)
    (h : st.last id = some idx) :
    idx < st.length ∧ st.ids.get? idx = some id ∧
      ∀ j, idx < j → j < st.length → st.ids.get? j ≠ some id := by
  unfold CompileStack.last at h
  suffices H : ∀ n (acc : Option Nat),
      (List.range n).foldl
          (fun acc i => if st.ids.get? i = some id then some i else acc) acc = some idx →
      (acc = some idx ∧ ∀ j, idx < j → j < n → st.ids.get? j ≠ some id) ∨
        (idx < n ∧ st.ids.get? idx = some id ∧
          ∀ j, idx < j → j < n → st.ids.get? j ≠ some id) by
    rcases H st.length none h with ⟨hacc, _⟩ | hgood
    · exact absurd hacc (by simp)
    · exact hgood
  intro n
  induction n with
  | zero =>
      intro acc hacc
      left
      exact ⟨by simpa using hacc, by omega⟩
  | succ m ih =>
      intro acc hacc
      rw [List.range_succ, List.foldl_append] at hacc
      simp only [List.foldl_cons, List.foldl_nil] at hacc
      by_cases hm : st.ids.get? m = some id
      · rw [if_pos hm] at hacc
        right
        obtain rfl : m = idx := by simpa using hacc
        exact ⟨by omega, hm, by omega⟩
      · rw [if_neg hm] at hacc
        rcases ih acc hacc with ⟨h1, h2⟩ | ⟨h1, h2, h3⟩
        · left
          refine ⟨h1, ?_⟩
          intro j hj1 hj2
          by_cases hjm : j = m
          · subst hjm; exact hm
          · exact h2 j hj1 (by omega)
        · right
          refine ⟨by omega, h2, ?_⟩
          intro j hj1 hj2
          by_cases hjm : j = m
          · subst hjm; exact hm
          · exact h3 j hj1 (by omega)

/-- C6: processing a close id locates the most-recently-pushed frame with
that id (no frame above it matches), discards every frame pushed after
it, pops it, and emits exactly one parent record spanning from the
frame's recorded start position to the current chunk's end. -/
theorem compiler_close_pairing (c : Compiler) (id : Nat) (to_ : Int) (idx : Nat)
    (hwf : c.stack.wf) (hlen : c.stack.length ≤ 64)
    (hlast : c.stack.last id = some idx) :
    c.stack.ids.get? idx = some id ∧
    (∀ j, idx < j → j < c.stack.length → c.stack.ids.get? j ≠ some id) ∧
    (c.processClose id to_).stack.length = idx ∧
    ∃ pos ch,
      c.stack.positions.get? idx = some pos ∧
      c.stack.children.get? idx = some ch ∧
      (c.processClose id to_).compiled =
        c.compiled ++ [⟨toInt32 id, toInt32 pos, toInt32 to_, toInt32 ((ch : Int) * 4 + 4)⟩] := by
  obtain ⟨hidx, hid, hmax⟩ := compileStack_last_spec c.stack id idx hlast
  obtain ⟨hwi, hwp, hwc⟩ := hwf
  simp only [COMPILER_STACK_SIZE] at hwi hwp hwc
  have hpi : idx < c.stack.positions.length := by omega
  have hci : idx < c.stack.children.length := by omega
  obtain ⟨pos, hpos⟩ : ∃ p, c.stack.positions.get? idx = some p := by
    rw [List.get?_eq_get hpi]
    exact ⟨_, rfl⟩
  obtain ⟨ch, hch⟩ : ∃ p, c.stack.children.get? idx = some p := by
    rw [List.get?_eq_get hci]
    exact ⟨_, rfl⟩
  refine ⟨hid, hmax, ?_, pos, ch, hpos, hch, ?_⟩
  · unfold Compiler.processClose
    rw [hlast]
    simp [Compiler.emit, CompileStack.pop, CompileStack.close, CompileStack.increment]
  · unfold Compiler.processClose
    rw [hlast]
    have hid' : c.stack.ids[idx]? = some id := by
      rw [← List.get?_eq_getElem?]
      exact hid
    have hpos' : c.stack.positions[idx]? = some pos := by
      rw [← List.get?_eq_getElem?]
      exact hpos
    have hch' : c.stack.children[idx]? = some ch := by
      rw [← List.get?_eq_getElem?]
      exact hch
    simp [Compiler.emit, CompileStack.pop, CompileStack.close, jsIntOf, jsChildSpan,
      hid', hpos', hch']

/-- Three open frames: node 5 at 0, node 7 at 2, node 9 at 3. -/
def exStack3 : CompileStack := ((CompileStack.new.push 5 0 0).push 7 2 0).push 9 3 0

def exCompiler : Compiler := ⟨exStack3, [], 0⟩

/-- Witness for `compiler_close_pairing`: closing id 5 pops the bottom
frame and discards the two frames (7 and 9) pushed after it. -/
theorem compiler_close_pairing_witness :
    exCompiler.stack.ids.get? 0 = some 5 ∧
    (∀ j, 0 < j → j < exCompiler.stack.length → exCompiler.stack.ids.get? j ≠ some 5) ∧
    (exCompiler.processClose 5 10).stack.length = 0 ∧
    ∃ pos ch,
      exCompiler.stack.positions.get? 0 = some pos ∧
      exCompiler.stack.children.get? 0 = some ch ∧
      (exCompiler.processClose 5 10).compiled =
        exCompiler.compiled ++
          [⟨toInt32 5, toInt32 pos, toInt32 10, toInt32 ((ch : Int) * 4 + 4)⟩] :=
  compiler_close_pairing exCompiler 5 10 0 ⟨rfl, rfl, rfl⟩ (by decide) (by decide)

/-! ## C7 — incomplete nodes are force-closed -/

theorem increment_children_length (st : CompileStack) :
    st.increment.children.length = st.children.length := by
  simp [CompileStack.increment]

theorem stepStack_ids (st : CompileStack) :
    ((st.increment).pop).2.increment.ids = st.ids := rfl

theorem stepStack_positions (st : CompileStack) :
    ((st.increment).pop).2.increment.positions = st.positions := rfl

theorem stepStack_length (st : CompileStack) :
    ((st.increment).pop).2.increment.length = st.length - 1 := rfl

theorem stepStack_children_length (st : CompileStack) :
    ((st.increment).pop).2.increment.children.length = st.children.length := by
  rw [increment_children_length]
  exact increment_children_length st

/-- The pop inside the finishing loop reads the top frame's id, start
and (incremented) child count, all defined while the stack is in
bounds. -/
theorem stepStack_read (st : CompileStack) (h : 0 < st.length) (hlen : st.length ≤ 64)
    (hwi : st.ids.length = 64) (hwp : st.positions.length = 64)
    (hwc : st.children.length = 64) :
    ∃ nid pos ch,
      st.ids.get? (st.length - 1) = some nid ∧
      st.positions.get? (st.length - 1) = some pos ∧
      ((st.increment).pop).1.1 = some nid ∧
      ((st.increment).pop).1.2.1 = some pos ∧
      ((st.increment).pop).1.2.2 = some ch := by
  have hi : st.length - 1 < st.ids.length := by omega
  have hp : st.length - 1 < st.positions.length := by omega
  have hc2 : st.length - 1 < st.increment.children.length := by
    rw [increment_children_length]
    omega
  obtain ⟨nid, hnid⟩ : ∃ v, st.ids.get? (st.length - 1) = some v := by
    rw [List.get?_eq_get hi]
    exact ⟨_, rfl⟩
  obtain ⟨pos, hpos⟩ : ∃ v, st.positions.get? (st.length - 1) = some v := by
    rw [List.get?_eq_get hp]
    exact ⟨_, rfl⟩
  obtain ⟨ch, hch⟩ : ∃ v, st.increment.children.get? (st.length - 1) = some v := by
    rw [List.get?_eq_get hc2]
    exact ⟨_, rfl⟩
  refine ⟨nid, pos, ch, hnid, hpos, ?_, ?_, ?_⟩
  · show (if st.increment.length = 0 then none
      else st.increment.ids.get? (st.increment.length - 1)) = some nid
    rw [show st.increment.length = st.length from rfl, if_neg (by omega)]
    exact hnid
  · show (if st.increment.length = 0 then none
      else st.increment.positions.get? (st.increment.length - 1)) = some pos
    rw [show st.increment.length = st.length from rfl, if_neg (by omega)]
    exact hpos
  · show (if st.increment.length = 0 then none
      else st.increment.children.get? (st.increment.length - 1)) = some ch
    rw [show st.increment.length = st.length from rfl, if_neg (by omega)]
    exact hch

theorem toInt32_three : toInt32 3 = 3 := by decide

theorem toInt32_four : toInt32 4 = 4 := by decide

/-- The compiler state after one iteration of the finishing loop: the
top frame is popped (ids and positions untouched), and the error marker
plus the force-closed parent record are appended. -/
def finishStepState (c : Compiler) (len : Int) : Compiler :=
  ⟨((c.stack.increment).pop).2.increment,
   (c.compiled ++
       [⟨toInt32 (NodeID.ERROR_INCOMPLETE : Int), toInt32 len, toInt32 len, toInt32 4⟩]) ++
     [⟨toInt32 (jsIntOf ((c.stack.increment).pop).1.1),
       toInt32 (jsIntOf ((c.stack.increment).pop).1.2.1), toInt32 len,
       toInt32 (jsChildSpan ((c.stack.increment).pop).1.2.2)⟩],
   c.reused⟩

/-- One iteration of the finishing loop, written out. -/
theorem finishLoop_step (c : Compiler) (len : Int) (h : 0 < c.stack.length) :
    Compiler.finishLoop c len = Compiler.finishLoop (finishStepState c len) len := by
  conv_lhs => rw [Compiler.finishLoop.eq_def]
  rw [dif_pos h]
  rfl

theorem finishStepState_stack_length (c : Compiler) (len : Int) :
    (finishStepState c len).stack.length = c.stack.length - 1 := rfl

theorem finishStepState_stack_ids (c : Compiler) (len : Int) :
    (finishStepState c len).stack.ids = c.stack.ids := rfl

theorem finishStepState_stack_positions (c : Compiler) (len : Int) :
    (finishStepState c len).stack.positions = c.stack.positions := rfl

theorem finishStepState_children_length (c : Compiler) (len : Int) :
    (finishStepState c len).stack.children.length = c.stack.children.length :=
  stepStack_children_length c.stack

theorem finishLoop_compiled_prefix (c : Compiler) (len : Int) :
    ∃ s, (Compiler.finishLoop c len).compiled = c.compiled ++ s := by
  generalize hn : c.stack.length = n
  induction n using Nat.strong_induction_on generalizing c with
  | _ n ih =>
      cases Nat.eq_zero_or_pos n with
      | inl h0 =>
          subst h0
          rw [Compiler.finishLoop.eq_def, dif_neg (by omega)]
          exact ⟨[], by simp⟩
      | inr hpos =>
          rw [finishLoop_step c len (by omega)]
          obtain ⟨s, hs⟩ := ih (n - 1) (by omega) (finishStepState c len)
            (by rw [finishStepState_stack_length]; omega)
          refine ⟨[⟨toInt32 (NodeID.ERROR_INCOMPLETE : Int), toInt32 len, toInt32 len,
              toInt32 4⟩] ++
            ([⟨toInt32 (jsIntOf ((c.stack.increment).pop).1.1),
               toInt32 (jsIntOf ((c.stack.increment).pop).1.2.1), toInt32 len,
               toInt32 (jsChildSpan ((c.stack.increment).pop).1.2.2)⟩] ++ s), ?_⟩
          rw [hs]
          simp [finishStepState]

theorem finishLoop_stack_zero (len : Int) :
    ∀ n (c : Compiler), c.stack.length = n →
      (Compiler.finishLoop c len).stack.length = 0 := by
  intro n
  induction n using Nat.strong_induction_on with
  | _ n ih =>
      intro c hn
      cases Nat.eq_zero_or_pos n with
      | inl h0 =>
          rw [Compiler.finishLoop.eq_def, dif_neg (by omega)]
          omega
      | inr hpos =>
          rw [finishLoop_step c len (by omega)]
          exact ih (n - 1) (by omega) _ (by rw [finishStepState_stack_length]; omega)

theorem get?_append_pair {l sfx : List Rec4} {a b : Rec4} :
    (l ++ (a :: b :: sfx)).get? l.length = some a ∧
    (l ++ (a :: b :: sfx)).get? (l.length + 1) = some b := by
  constructor
  · rw [List.get?_append_right (le_refl _)]
    simp
  · rw [List.get?_append_right (by omega)]
    simp

/-- The emission structure of the finishing loop: for a stack of `n ≤ 64`
frames it appends exactly `2n` records — for each still-open frame, in
top-down order, one `ERROR_INCOMPLETE` marker at the document end
immediately followed by the frame's force-closed parent record ending at
the document end. -/
theorem finishLoop_emits (len : Int) :
    ∀ n (c : Compiler), c.stack.length = n → c.stack.wf → n ≤ 64 →
      (Compiler.finishLoop c len).compiled.length = c.compiled.length + 2 * n ∧
      ∀ k, k < n →
        (Compiler.finishLoop c len).compiled.get? (c.compiled.length + 2 * k) =
          some ⟨3, toInt32 len, toInt32 len, 4⟩ ∧
        ∃ nid pos,
          c.stack.ids.get? (n - 1 - k) = some nid ∧
          c.stack.positions.get? (n - 1 - k) = some pos ∧
          ∃ chSpan : Int,
            (Compiler.finishLoop c len).compiled.get? (c.compiled.length + 2 * k + 1) =
              some ⟨toInt32 (nid : Int), toInt32 (pos : Int), toInt32 len, chSpan⟩ := by
  intro n
  induction n using Nat.strong_induction_on with
  | _ n ih =>
      intro c hn hwf hle
      cases Nat.eq_zero_or_pos n with
      | inl h0 =>
          rw [Compiler.finishLoop.eq_def, dif_neg (by omega)]
          exact ⟨by omega, by intro k hk; omega⟩
      | inr hpos =>
          obtain ⟨hwi, hwp, hwc⟩ := hwf
          simp only [COMPILER_STACK_SIZE] at hwi hwp hwc
          obtain ⟨nid, pos, ch, hnid, hpos2, hrid, hrpos, hrch⟩ :=
            stepStack_read c.stack (by omega) (by omega) hwi hwp hwc
          rw [hn] at hnid hpos2
          rw [finishLoop_step c len (by omega)]
          have hwf' : (finishStepState c len).stack.wf := by
            refine ⟨?_, ?_, ?_⟩
            · rw [finishStepState_stack_ids]
              simpa [COMPILER_STACK_SIZE] using hwi
            · rw [finishStepState_stack_positions]
              simpa [COMPILER_STACK_SIZE] using hwp
            · rw [finishStepState_children_length]
              simpa [COMPILER_STACK_SIZE] using hwc
          obtain ⟨ihB, ihC⟩ := ih (n - 1) (by omega) (finishStepState c len)
            (by rw [finishStepState_stack_length]; omega) hwf' (by omega)
          have hcl : (finishStepState c len).compiled.length = c.compiled.length + 2 := by
            simp [finishStepState]
          obtain ⟨sfx, hsfx⟩ := finishLoop_compiled_prefix (finishStepState c len) len
          have hshape : (Compiler.finishLoop (finishStepState c len) len).compiled =
              c.compiled ++
                ((⟨3, toInt32 len, toInt32 len, 4⟩ : Rec4) ::
                  (⟨toInt32 (nid : Int), toInt32 (pos : Int), toInt32 len,
                    toInt32 ((ch : Int) * 4 + 4)⟩ : Rec4) :: sfx) := by
            rw [hsfx]
            simp [finishStepState, hrid, hrpos, hrch, jsIntOf, jsChildSpan,
              NodeID.ERROR_INCOMPLETE, toInt32_three, toInt32_four]
          constructor
          · rw [ihB, hcl]
            omega
          · intro k hk
            cases k with
            | zero =>
                constructor
                · rw [hshape, show c.compiled.length + 2 * 0 = c.compiled.length by omega]
                  exact get?_append_pair.1
                · refine ⟨nid, pos, by simpa using hnid, by simpa using hpos2,
                    toInt32 ((ch : Int) * 4 + 4), ?_⟩
                  rw [hshape, show c.compiled.length + 2 * 0 + 1 = c.compiled.length + 1
                    by omega]
                  exact get?_append_pair.2
            | succ j =>
                have hj : j < n - 1 := by omega
                obtain ⟨hC1, nid', pos', hnid', hpos', chSpan', hCrec⟩ := ihC j hj
                rw [finishStepState_stack_ids] at hnid'
                rw [finishStepState_stack_positions] at hpos'
                constructor
                · rw [show c.compiled.length + 2 * (j + 1) =
                      (finishStepState c len).compiled.length + 2 * j by rw [hcl]; omega]
                  exact hC1
                · refine ⟨nid', pos', ?_, ?_, chSpan', ?_⟩
                  · rw [show n - 1 - (j + 1) = n - 1 - 1 - j by omega]
                    exact hnid'
                  · rw [show n - 1 - (j + 1) = n - 1 - 1 - j by omega]
                    exact hpos'
                  · rw [show c.compiled.length + 2 * (j + 1) + 1 =
                        (finishStepState c len).compiled.length + 2 * j + 1
                      by rw [hcl]; omega]
                    exact hCrec

/-- C7: with `FINISH_INCOMPLETE_NODES` enabled, the finishing pass at the
end of `Compiler.compile` leaves no frame open: every frame still open
after all chunks are processed is force-closed at the document's end
position `len`, and exactly one `ERROR_INCOMPLETE` marker record is
emitted per remaining frame, each immediately preceding that frame's
force-closed parent record; consequently a full `Compiler.run` over a
non-empty chunk list always ends with an empty stack. -/
theorem compiler_finish_incomplete (c : Compiler) (len : Int)
    (hwf : c.stack.wf) (hlen : c.stack.length ≤ 64) :
    (Compiler.finishLoop c len).stack.length = 0 ∧
    (Compiler.finishLoop c len).compiled.length = c.compiled.length + 2 * c.stack.length ∧
    (∀ k, k < c.stack.length →
      (Compiler.finishLoop c len).compiled.get? (c.compiled.length + 2 * k) =
        some ⟨3, toInt32 len, toInt32 len, 4⟩ ∧
      ∃ nid pos,
        c.stack.ids.get? (c.stack.length - 1 - k) = some nid ∧
        c.stack.positions.get? (c.stack.length - 1 - k) = some pos ∧
        ∃ chSpan : Int,
          (Compiler.finishLoop c len).compiled.get? (c.compiled.length + 2 * k + 1) =
            some ⟨toInt32 (nid : Int), toInt32 (pos : Int), toInt32 len, chSpan⟩) ∧
    (∀ c0 chunks, chunks ≠ [] → (Compiler.run c0 chunks len).stack.length = 0) := by
  obtain ⟨hB, hC⟩ := finishLoop_emits len c.stack.length c rfl hwf hlen
  refine ⟨finishLoop_stack_zero len c.stack.length c rfl, hB, hC, ?_⟩
  intro c0 chunks hne
  unfold Compiler.run
  rw [if_neg (by simpa using hne)]
  simp only [FINISH_INCOMPLETE_NODES, if_true]
  exact finishLoop_stack_zero len _ _ rfl

/-- Witness for `compiler_finish_incomplete`: three frames are still
open; the finishing loop empties the stack and emits six records. -/
theorem compiler_finish_incomplete_witness :
    (Compiler.finishLoop exCompiler 10).stack.length = 0 ∧
    (Compiler.finishLoop exCompiler 10).compiled.length =
      exCompiler.compiled.length + 2 * exCompiler.stack.length := by
  have h := compiler_finish_incomplete exCompiler 10 ⟨rfl, rfl, rfl⟩ (by decide)
  exact ⟨h.1, h.2.1⟩

/-! ## C2 — chunk ordering: non-overlap holds, strict `from` increase does not -/

/-- Span well-formedness of one chunk (`to = from + length`, non-negative
length); every chunk operation maintains it. -/
def Chunk.wfSpan (c : Chunk) : Prop := c.to_ = c.from_ + c.length ∧ c.from_ ≤ c.to_

/-- The ordering the buffer operations actually maintain between two
chunks: no overlap (the first ends at or before the second starts).
Together with span well-formedness this makes the `from` positions
non-decreasing — but not strictly increasing: `add` leaves an empty
chunk at the parse position after a close action, and the `tryToReuse`
splice links a chunk starting exactly there (see the counterexample
below). -/
def chunkLE (a b : Chunk) : Prop := a.to_ ≤ b.from_

/-- The buffer invariant: pairwise non-overlap plus per-chunk span
well-formedness. -/
def ChunkBuffer.inv (b : ChunkBuffer) : Prop :=
  List.Pairwise chunkLE b.chunks ∧ ∀ c ∈ b.chunks, c.wfSpan

/-- The end of the buffer's last chunk (`d` when the buffer is empty):
the lower bound for the next token's position during a parse. -/
def ChunkBuffer.lastEnd (b : ChunkBuffer) (d : Int) : Int :=
  match b.chunks.getLast? with
  | none => d
  | some c => c.to_

/-- The buffers reachable during a parse: built from the empty buffer by
`add` with forward tokens (zero-length tokens included — zero-length
matches compile to them), by `split`, by `slide` with `cutLeft` (the
only form the parser uses), and by `link`ing an ahead buffer whose
first chunk starts at or past the working buffer's end (the
`tryToReuse` splice links at equality: the reusable chunk starts
exactly at `parsedPos`, where `add` may just have left an empty
chunk). -/
inductive ChunkBuffer.Reachable : ChunkBuffer → Prop where
  | empty : ChunkBuffer.Reachable ⟨[]⟩
  | add (b : ChunkBuffer) (st : GrammarState) (t : GrammarToken)
      (hb : ChunkBuffer.Reachable b)
      (hfrom : b.lastEnd t.from_ ≤ t.from_)
      (hlen : t.from_ ≤ t.to_) :
      ChunkBuffer.Reachable (b.add st t).1
  | splitLeft (b : ChunkBuffer) (i : Nat) (l r : ChunkBuffer)
      (hb : ChunkBuffer.Reachable b) (hs : b.split i = some (l, r)) :
      ChunkBuffer.Reachable l
  | splitRight (b : ChunkBuffer) (i : Nat) (l r : ChunkBuffer)
      (hb : ChunkBuffer.Reachable b) (hs : b.split i = some (l, r)) :
      ChunkBuffer.Reachable r
  | slide (b : ChunkBuffer) (i : Nat) (o : Int) (b' : ChunkBuffer)
      (hb : ChunkBuffer.Reachable b) (hs : b.slide i o true = some b') :
      ChunkBuffer.Reachable b'
  | link (b r : ChunkBuffer) (max? : Option Int)
      (hb : ChunkBuffer.Reachable b) (hr : ChunkBuffer.Reachable r)
      (hbd : ∀ cl ∈ b.chunks.getLast?, ∀ cr ∈ r.chunks.head?, cl.to_ ≤ cr.from_) :
      ChunkBuffer.Reachable (b.link r max?)

theorem Chunk.pushOpen_to (c : Chunk) (os : List Nat) : (c.pushOpen os).to_ = c.to_ := rfl

theorem Chunk.pushClose_to (c : Chunk) (cs : List Nat) : (c.pushClose cs).to_ = c.to_ := rfl

theorem Chunk.new_to (p : Int) (st : GrammarState) : (Chunk.new p st).to_ = p := rfl

theorem Chunk.pushOpen_length (c : Chunk) (os : List Nat) :
    (c.pushOpen os).length = c.length := rfl

theorem Chunk.pushClose_length (c : Chunk) (cs : List Nat) :
    (c.pushClose cs).length = c.length := rfl

theorem Chunk.add_span (c : Chunk) (id : Option Int) (f t : Int) (h : c.to_ < t) :
    (c.add id f t).from_ = c.from_ ∧ (c.add id f t).to_ = t ∧
      (c.add id f t).length = t - c.from_ := by
  unfold Chunk.add
  cases id <;> simp [h]

theorem Chunk.add_span_le (c : Chunk) (id : Option Int) (f t : Int) (h : ¬c.to_ < t) :
    (c.add id f t).from_ = c.from_ ∧ (c.add id f t).to_ = c.to_ ∧
      (c.add id f t).length = c.length := by
  unfold Chunk.add
  cases id <;> simp [h]

theorem inv_append_one {l : List Chunk} {c : Chunk}
    (hp : List.Pairwise chunkLE l) (hw : ∀ a ∈ l, a.wfSpan)
    (hc : c.wfSpan) (ho : ∀ a ∈ l, chunkLE a c) :
    ChunkBuffer.inv ⟨l ++ [c]⟩ := by
  constructor
  · rw [List.pairwise_append]
    refine ⟨hp, List.pairwise_singleton _ _, ?_⟩
    intro a ha d hd
    simp only [List.mem_singleton] at hd
    subst hd
    exact ho a ha
  · intro a ha
    rcases List.mem_append.1 ha with h | h
    · exact hw a h
    · simp only [List.mem_singleton] at h
      subst h
      exact hc

theorem inv_append_two {l : List Chunk} {c d : Chunk}
    (hp : List.Pairwise chunkLE l) (hw : ∀ a ∈ l, a.wfSpan)
    (hc : c.wfSpan) (hd : d.wfSpan) (hcd : chunkLE c d)
    (hoc : ∀ a ∈ l, chunkLE a c) (hod : ∀ a ∈ l, chunkLE a d) :
    ChunkBuffer.inv ⟨l ++ [c, d]⟩ := by
  constructor
  · rw [List.pairwise_append]
    refine ⟨hp, ?_, ?_⟩
    · exact List.pairwise_cons.2 ⟨by simpa using hcd, List.pairwise_singleton _ _⟩
    · intro a ha e he
      rcases List.mem_cons.1 he with h | h
      · subst h; exact hoc a ha
      · simp only [List.mem_singleton] at h
        subst h
        exact hod a ha
  · intro a ha
    rcases List.mem_append.1 ha with h | h
    · exact hw a h
    · rcases List.mem_cons.1 h with h2 | h2
      · subst h2; exact hc
      · simp only [List.mem_singleton] at h2
        subst h2
        exact hd

theorem inv_decomp (b : ChunkBuffer) (cur : Chunk) (hL : b.chunks.getLast? = some cur)
    (hinv : b.inv) :
    List.Pairwise chunkLE b.chunks.dropLast ∧ (∀ a ∈ b.chunks.dropLast, a.wfSpan) ∧
    (∀ a ∈ b.chunks.dropLast, chunkLE a cur) ∧ cur.wfSpan := by
  obtain ⟨hp, hw⟩ := hinv
  have hdl := getLast?_dropLast_append hL
  have hp2 : List.Pairwise chunkLE (b.chunks.dropLast ++ [cur]) := by rw [hdl]; exact hp
  rw [List.pairwise_append] at hp2
  refine ⟨hp2.1, ?_, ?_, ?_⟩
  · intro a ha
    exact hw a (by rw [← hdl]; exact List.mem_append.2 (Or.inl ha))
  · intro a ha
    exact hp2.2.2 a ha cur (by simp)
  · exact hw cur (by rw [← hdl]; simp)

/-- Appending the token and (possibly) closing preserves the invariant,
given that the current chunk ends at or before the token's start (the
token may have zero length). -/
theorem stage3_inv (st : GrammarState) (t : GrammarToken) (init : List Chunk)
    (cur : Chunk) (p : Bool)
    (hp : List.Pairwise chunkLE init)
    (hw : ∀ a ∈ init, a.wfSpan)
    (hwfc : cur.wfSpan)
    (ho : ∀ a ∈ init, chunkLE a cur)
    (hcurt : cur.to_ ≤ t.from_)
    (hlen : t.from_ ≤ t.to_) :
    (addStage3 st t (init, cur, p)).1.inv := by
  obtain ⟨hwc1, hwc2⟩ := hwfc
  have hcase : (cur.add t.id t.from_ t.to_).from_ = cur.from_ ∧
      cur.to_ ≤ (cur.add t.id t.from_ t.to_).to_ ∧
      (cur.add t.id t.from_ t.to_).wfSpan := by
    by_cases hext : cur.to_ < t.to_
    · obtain ⟨h1, h2, h3⟩ := Chunk.add_span cur t.id t.from_ t.to_ hext
      exact ⟨h1, by omega, by omega, by omega⟩
    · obtain ⟨h1, h2, h3⟩ := Chunk.add_span_le cur t.id t.from_ t.to_ hext
      exact ⟨h1, by omega, by omega, by omega⟩
  obtain ⟨hf2, ht2, hwf2⟩ := hcase
  have ho2 : ∀ a ∈ init, chunkLE a (cur.add t.id t.from_ t.to_) := by
    intro a ha
    have h2 : a.to_ ≤ cur.from_ := ho a ha
    show a.to_ ≤ (cur.add t.id t.from_ t.to_).from_
    omega
  cases hC : t.closes with
  | none =>
      rw [addStage3_noclose st t _ _ _ hC]
      exact inv_append_one hp hw hwf2 ho2
  | some cs =>
      rw [addStage3_close st t _ _ _ cs hC]
      have hc3f : ((cur.add t.id t.from_ t.to_).pushClose cs).from_ =
          (cur.add t.id t.from_ t.to_).from_ := Chunk.pushClose_from _ cs
      have hc3t : ((cur.add t.id t.from_ t.to_).pushClose cs).to_ =
          (cur.add t.id t.from_ t.to_).to_ := Chunk.pushClose_to _ cs
      have hc3l : ((cur.add t.id t.from_ t.to_).pushClose cs).length =
          (cur.add t.id t.from_ t.to_).length := Chunk.pushClose_length _ cs
      obtain ⟨hwf21, hwf22⟩ := hwf2
      refine inv_append_two hp hw ⟨by omega, by omega⟩
        ⟨by rw [Chunk.new_to, Chunk.new_from, Chunk.new_length]; ring,
         by rw [Chunk.new_to, Chunk.new_from]⟩
        ?_ ?_ ?_
      · show ((cur.add t.id t.from_ t.to_).pushClose cs).to_ ≤
          (Chunk.new ((cur.add t.id t.from_ t.to_).pushClose cs).to_ st).from_
        rw [Chunk.new_from]
      · intro a ha
        have h2 : a.to_ ≤ cur.from_ := ho a ha
        show a.to_ ≤ ((cur.add t.id t.from_ t.to_).pushClose cs).from_
        omega
      · intro a ha
        have h2 : a.to_ ≤ cur.from_ := ho a ha
        show a.to_ ≤ (Chunk.new ((cur.add t.id t.from_ t.to_).pushClose cs).to_ st).from_
        rw [Chunk.new_from]
        omega

theorem getLast?_none_nil {α : Type} {l : List α} (h : l.getLast? = none) : l = [] := by
  cases hb : l with
  | nil => rfl
  | cons x xs =>
      rw [hb] at h
      simp at h

/-- `ChunkBuffer.add` preserves the invariant for a forward token (zero
length allowed). -/
theorem add_preserves_inv (b : ChunkBuffer) (st : GrammarState) (t : GrammarToken)
    (hinv : b.inv) (hfrom : b.lastEnd t.from_ ≤ t.from_) (hlen : t.from_ ≤ t.to_) :
    (b.add st t).1.inv := by
  unfold ChunkBuffer.add
  cases hL : b.chunks.getLast? with
  | none =>
      rw [addStage1_empty b st t hL]
      have hnewwf : (Chunk.new t.from_ st).wfSpan := by
        refine ⟨?_, ?_⟩
        · rw [Chunk.new_to, Chunk.new_from, Chunk.new_length]
          ring
        · rw [Chunk.new_to, Chunk.new_from]
      cases hO : t.opens with
      | none =>
          rw [addStage2_none st t _ _ _ hO]
          exact stage3_inv st t [] _ _ (List.Pairwise.nil) (by simp) hnewwf (by simp)
            (by rw [Chunk.new_to]) hlen
      | some os =>
          rw [addStage2_open_empty st t _ _ _ os hO (by simp [Chunk.new_length])]
          exact stage3_inv st t [] _ _ (List.Pairwise.nil) (by simp)
            hnewwf (by simp) (by rw [Chunk.pushOpen_to, Chunk.new_to]) hlen
  | some cur =>
      have hLE : cur.to_ ≤ t.from_ := by
        unfold ChunkBuffer.lastEnd at hfrom
        rw [hL] at hfrom
        exact hfrom
      obtain ⟨hpDL, hwDL, hoDL, hwfcur⟩ := inv_decomp b cur hL hinv
      have hdl := getLast?_dropLast_append hL
      rw [addStage1_last b st t cur hL]
      cases hO : t.opens with
      | none =>
          rw [addStage2_none st t _ _ _ hO]
          exact stage3_inv st t _ cur _ hpDL hwDL hwfcur hoDL hLE hlen
      | some os =>
          by_cases hcl : cur.length ≠ 0
          · rw [addStage2_open_content st t _ _ _ os hO hcl]
            apply stage3_inv st t _ _ _ ?_ ?_ ?_ ?_ ?_ hlen
            · rw [hdl]
              exact hinv.1
            · rw [hdl]
              exact hinv.2
            · refine ⟨?_, ?_⟩
              · rw [Chunk.pushOpen_to, Chunk.pushOpen_from, Chunk.pushOpen_length,
                  Chunk.new_to, Chunk.new_from, Chunk.new_length]
                ring
              · rw [Chunk.pushOpen_to, Chunk.pushOpen_from, Chunk.new_to, Chunk.new_from]
            · intro a ha
              have haf : a.to_ ≤ cur.to_ := by
                rcases List.mem_append.1 ha with h | h
                · have h2 : a.to_ ≤ cur.from_ := hoDL a h
                  obtain ⟨hw1, hw2⟩ := hwfcur
                  omega
                · simp only [List.mem_singleton] at h
                  subst h
                  omega
              show a.to_ ≤ ((Chunk.new cur.to_ st).pushOpen os).from_
              rw [Chunk.pushOpen_from, Chunk.new_from]
              exact haf
            · rw [Chunk.pushOpen_to, Chunk.new_to]
              exact hLE
          · rw [addStage2_open_empty st t _ _ _ os hO hcl]
            apply stage3_inv st t _ _ _ hpDL hwDL ?_ ?_ ?_ hlen
            · obtain ⟨hw1, hw2⟩ := hwfcur
              exact ⟨by rw [Chunk.pushOpen_to, Chunk.pushOpen_from, Chunk.pushOpen_length]
                       ; omega,
                     by rw [Chunk.pushOpen_to, Chunk.pushOpen_from]; omega⟩
            · intro a ha
              have h2 : a.to_ ≤ cur.from_ := hoDL a ha
              show a.to_ ≤ (cur.pushOpen os).from_
              rw [Chunk.pushOpen_from]
              exact h2
            · rw [Chunk.pushOpen_to]
              exact hLE

theorem split_eq (b : ChunkBuffer) (i : Nat) (l r : ChunkBuffer)
    (hs : b.split i = some (l, r)) :
    l.chunks = replaceLast (b.chunks.take (i + 1)) (fun c => Chunk.new c.from_ c.state) ∧
    r.chunks = b.chunks.drop (i + 1) := by
  unfold ChunkBuffer.split at hs
  by_cases h : i < b.chunks.length
  · rw [if_pos h] at hs
    by_cases hle : b.chunks.length ≤ 1
    · have hi : i = 0 := by omega
      subst hi
      simp only [if_pos hle, Option.some.injEq, Prod.mk.injEq] at hs
      obtain ⟨hl, hr⟩ := hs
      constructor
      · rw [← hl]
        rw [show (0 : Nat) + 1 = 1 from rfl, List.take_of_length_le hle]
      · rw [← hr]
        exact (List.drop_eq_nil_of_le hle).symm
    · simp only [if_neg hle, Option.some.injEq, Prod.mk.injEq] at hs
      obtain ⟨hl, hr⟩ := hs
      constructor
      · rw [← hl]
      · rw [← hr]
  · rw [if_neg h] at hs
    cases hs

theorem replaceLast_clear_inv (l : List Chunk)
    (hp : List.Pairwise chunkLE l) (hw : ∀ a ∈ l, a.wfSpan) :
    List.Pairwise chunkLE
        (replaceLast l (fun c => Chunk.new c.from_ c.state)) ∧
      ∀ a ∈ replaceLast l (fun c => Chunk.new c.from_ c.state), a.wfSpan := by
  unfold replaceLast
  cases hL : l.getLast? with
  | none => exact ⟨hp, hw⟩
  | some last =>
      have hdl := getLast?_dropLast_append hL
      have hp2 : List.Pairwise chunkLE (l.dropLast ++ [last]) := by
        rw [hdl]
        exact hp
      rw [List.pairwise_append] at hp2
      constructor
      · rw [List.pairwise_append]
        refine ⟨hp2.1, List.pairwise_singleton _ _, ?_⟩
        intro a ha d hd
        simp only [List.mem_singleton] at hd
        subst hd
        have h2 : a.to_ ≤ last.from_ := hp2.2.2 a ha last (by simp)
        show a.to_ ≤ (Chunk.new last.from_ last.state).from_
        rw [Chunk.new_from]
        exact h2
      · intro a ha
        rcases List.mem_append.1 ha with h | h
        · exact hw a (by rw [← hdl]; exact List.mem_append.2 (Or.inl h))
        · simp only [List.mem_singleton] at h
          subst h
          exact ⟨by rw [Chunk.new_to, Chunk.new_from, Chunk.new_length]; ring,
                 by rw [Chunk.new_to, Chunk.new_from]⟩

theorem split_preserves_inv (b : ChunkBuffer) (i : Nat) (l r : ChunkBuffer)
    (hinv : b.inv) (hs : b.split i = some (l, r)) : l.inv ∧ r.inv := by
  obtain ⟨hl, hr⟩ := split_eq b i l r hs
  obtain ⟨hp, hw⟩ := hinv
  constructor
  · have hpt : List.Pairwise chunkLE (b.chunks.take (i + 1)) :=
      hp.sublist (List.take_sublist _ _)
    have hwt : ∀ a ∈ b.chunks.take (i + 1), a.wfSpan := fun a ha =>
      hw a ((List.take_sublist _ _).subset ha)
    obtain ⟨h1, h2⟩ := replaceLast_clear_inv _ hpt hwt
    exact ⟨by rw [hl]; exact h1, by rw [hl]; exact h2⟩
  · constructor
    · rw [hr]
      exact hp.sublist (List.drop_sublist _ _)
    · rw [hr]
      intro a ha
      exact hw a ((List.drop_sublist _ _).subset ha)

theorem Chunk.offset_from (c : Chunk) (o : Int) : (c.offset o).from_ = c.from_ + o := rfl

theorem Chunk.offset_to (c : Chunk) (o : Int) :
    (c.offset o).to_ = c.from_ + o + c.length := rfl

theorem Chunk.offset_length (c : Chunk) (o : Int) : (c.offset o).length = c.length := rfl

theorem map_offset_inv (l : List Chunk) (o : Int)
    (hp : List.Pairwise chunkLE l) (hw : ∀ a ∈ l, a.wfSpan) :
    List.Pairwise chunkLE (l.map (fun c => c.offset o)) ∧
      ∀ a ∈ l.map (fun c => c.offset o), a.wfSpan := by
  constructor
  · rw [List.pairwise_map]
    refine hp.imp_of_mem ?_
    intro a c ha hc h
    have h1 : a.to_ ≤ c.from_ := h
    obtain ⟨hwa1, hwa2⟩ := hw a ha
    show (a.offset o).to_ ≤ (c.offset o).from_
    rw [Chunk.offset_to, Chunk.offset_from]
    omega
  · intro x hx
    rw [List.mem_map] at hx
    obtain ⟨c, hc, rfl⟩ := hx
    obtain ⟨h1, h2⟩ := hw c hc
    refine ⟨by rw [Chunk.offset_to, Chunk.offset_from, Chunk.offset_length], ?_⟩
    rw [Chunk.offset_to, Chunk.offset_from]
    omega

theorem slide_zip_map (l : List Chunk) (o : Int) :
    ((l.zip (List.range l.length)).map
        (fun p => if (0 : Nat) ≤ p.2 then p.1.offset o else p.1)) =
      l.map (fun c => c.offset o) := by
  have h1 : ∀ p ∈ l.zip (List.range l.length),
      (if (0 : Nat) ≤ p.2 then p.1.offset o else p.1) = p.1.offset o := by
    intro p _
    rw [if_pos (Nat.zero_le _)]
  rw [List.map_congr_left h1]
  rw [show (fun p : Chunk × Nat => p.1.offset o) =
      ((fun c : Chunk => c.offset o) ∘ Prod.fst) from rfl]
  rw [← List.map_map, List.map_fst_zip]
  simp

theorem slide_preserves_inv (b : ChunkBuffer) (i : Nat) (o : Int) (b' : ChunkBuffer)
    (hinv : b.inv) (hs : b.slide i o true = some b') : b'.inv := by
  obtain ⟨hp, hw⟩ := hinv
  unfold ChunkBuffer.slide at hs
  by_cases h : i < b.chunks.length
  · rw [if_pos h] at hs
    simp only [Option.some.injEq] at hs
    subst hs
    rw [if_neg (show ¬b.chunks.length = 0 by omega)]
    by_cases h1 : b.chunks.length = 1
    · rw [if_pos h1]
      obtain ⟨c, hc⟩ := List.length_eq_one.1 h1
      rw [hc]
      unfold replaceLast
      simp only [List.getLast?_singleton, List.dropLast_single, List.nil_append]
      refine ⟨List.pairwise_singleton _ _, ?_⟩
      intro a ha
      simp only [List.mem_singleton] at ha
      subst ha
      obtain ⟨h1', h2'⟩ := hw c (by rw [hc]; simp)
      refine ⟨by rw [Chunk.offset_to, Chunk.offset_from, Chunk.offset_length], ?_⟩
      rw [Chunk.offset_to, Chunk.offset_from]
      omega
    · rw [if_neg h1]
      show ChunkBuffer.inv
        ⟨((b.chunks.drop i).zip (List.range (b.chunks.drop i).length)).map
          (fun p => if (0 : Nat) ≤ p.2 then p.1.offset o else p.1)⟩
      rw [slide_zip_map]
      have hpd : List.Pairwise chunkLE (b.chunks.drop i) :=
        hp.sublist (List.drop_sublist _ _)
      have hwd : ∀ a ∈ b.chunks.drop i, a.wfSpan := fun a ha =>
        hw a ((List.drop_sublist _ _).subset ha)
      exact map_offset_inv _ o hpd hwd
  · rw [if_neg h] at hs
    cases hs

theorem pairwise_last_head {lb lr : List Chunk}
    (hpb : List.Pairwise chunkLE lb) (hwb : ∀ a ∈ lb, a.wfSpan)
    (hpr : List.Pairwise chunkLE lr) (hwr : ∀ a ∈ lr, a.wfSpan)
    (hbd : ∀ cl ∈ lb.getLast?, ∀ cr ∈ lr.head?, cl.to_ ≤ cr.from_) :
    ∀ a ∈ lb, ∀ c ∈ lr, chunkLE a c := by
  intro a ha c hc
  cases hLb : lb.getLast? with
  | none =>
      rw [getLast?_none_nil hLb] at ha
      cases ha
  | some cl =>
      cases hlr : lr with
      | nil =>
          rw [hlr] at hc
          cases hc
      | cons cr tail =>
          have hbd1 : cl.to_ ≤ cr.from_ := hbd cl (by simp [hLb]) cr (by simp [hlr])
          have hwcl := hwb cl (by
            rw [← getLast?_dropLast_append hLb]
            simp)
          have hacl : a.to_ ≤ cl.to_ := by
            have hdl := getLast?_dropLast_append hLb
            have hp2 : List.Pairwise chunkLE (lb.dropLast ++ [cl]) := by
              rw [hdl]
              exact hpb
            rw [List.pairwise_append] at hp2
            rcases List.mem_append.1 (by rw [hdl]; exact ha) with hmem | hmem
            · have h1 : a.to_ ≤ cl.from_ := hp2.2.2 a hmem cl (by simp)
              obtain ⟨hw1, hw2⟩ := hwcl
              omega
            · simp only [List.mem_singleton] at hmem
              subst hmem
              omega
          have hwcr : cr.wfSpan := hwr cr (by rw [hlr]; simp)
          have hcrc : cr.from_ ≤ c.from_ := by
            rw [hlr] at hc hpr
            rcases List.mem_cons.1 hc with hmem | hmem
            · subst hmem
              omega
            · have h1 : cr.to_ ≤ c.from_ := (List.pairwise_cons.1 hpr).1 c hmem
              obtain ⟨hq1, hq2⟩ := hwcr
              omega
          show a.to_ ≤ c.from_
          omega

theorem link_preserves_inv (b r : ChunkBuffer) (max? : Option Int)
    (hb : b.inv) (hr : r.inv)
    (hbd : ∀ cl ∈ b.chunks.getLast?, ∀ cr ∈ r.chunks.head?, cl.to_ ≤ cr.from_) :
    (b.link r max?).inv := by
  have hcat : List.Pairwise chunkLE (b.chunks ++ r.chunks) ∧
      ∀ a ∈ b.chunks ++ r.chunks, a.wfSpan := by
    constructor
    · rw [List.pairwise_append]
      exact ⟨hb.1, hr.1, pairwise_last_head hb.1 hb.2 hr.1 hr.2 hbd⟩
    · intro a ha
      rcases List.mem_append.1 ha with h | h
      · exact hb.2 a h
      · exact hr.2 a h
  unfold ChunkBuffer.link
  cases max? with
  | none => exact hcat
  | some m =>
      show (if m ≠ 0 then
          (⟨(b.chunks ++ r.chunks).takeWhile (fun c => decide (c.to_ ≤ m))⟩ : ChunkBuffer)
        else ⟨b.chunks ++ r.chunks⟩).inv
      by_cases hm : m ≠ 0
      · rw [if_pos hm]
        constructor
        · exact hcat.1.sublist (List.takeWhile_sublist _)
        · intro a ha
          exact hcat.2 a ((List.takeWhile_sublist _).subset ha)
      · rw [if_neg hm]
        exact hcat

/-- C2 (amended): every `ChunkBuffer` reachable through `add` (with
forward tokens, zero-length ones included), `split`, `slide` (cutting
left, as the parser uses it) and boundary-respecting `link` has pairwise
non-overlapping chunks whose `from` positions are non-decreasing in
array order.  Strictly increasing `from` positions, as originally
claimed, do not hold: see the counterexample below. -/
theorem chunkBuffer_reachable_nonoverlap (b : ChunkBuffer) (h : b.Reachable) :
    List.Pairwise (fun a c => a.to_ ≤ c.from_ ∧ a.from_ ≤ c.from_) b.chunks ∧
      ∀ c ∈ b.chunks, c.from_ ≤ c.to_ := by
  suffices H : b.inv by
    refine ⟨?_, fun c hc => (H.2 c hc).2⟩
    refine H.1.imp_of_mem ?_
    intro a c ha hc hle
    have h1 : a.to_ ≤ c.from_ := hle
    have h2 : a.from_ ≤ a.to_ := (H.2 a ha).2
    exact ⟨h1, by omega⟩
  induction h with
  | empty => exact ⟨List.Pairwise.nil, by simp⟩
  | add b st t hb hfrom hlen ih => exact add_preserves_inv b st t ih hfrom hlen
  | splitLeft b i l r hb hs ih => exact (split_preserves_inv b i l r ih hs).1
  | splitRight b i l r hb hs ih => exact (split_preserves_inv b i l r ih hs).2
  | slide b i o b' hb hs ih => exact slide_preserves_inv b i o b' ih hs
  | link b r max? hb hr hbd ih1 ih2 => exact link_preserves_inv b r max? ih1 ih2 hbd

/-- Witness: two tokens added in sequence, the second a zero-length
open+close token at the first token's end; the resulting buffer contains
chunks with equal `from`, and the non-overlap and non-decreasing-`from`
conclusions hold on it. -/
theorem chunkBuffer_reachable_nonoverlap_witness :
    List.Pairwise (fun a c => a.to_ ≤ c.from_ ∧ a.from_ ≤ c.from_)
        ((((ChunkBuffer.mk []).add stEmpty ⟨some 1, 0, 2, none, none⟩).1.add stEmpty
            ⟨some 2, 2, 2, some [7], some [7]⟩).1).chunks ∧
      ∀ c ∈ (((ChunkBuffer.mk []).add stEmpty ⟨some 1, 0, 2, none, none⟩).1.add stEmpty
            ⟨some 2, 2, 2, some [7], some [7]⟩).1.chunks,
        c.from_ ≤ c.to_ :=
  chunkBuffer_reachable_nonoverlap _
    (ChunkBuffer.Reachable.add _ stEmpty _
      (ChunkBuffer.Reachable.add _ stEmpty _ ChunkBuffer.Reachable.empty (by decide)
        (by decide))
      (by decide) (by decide))

/-- The working buffer right after a close-action token spanning 0–2:
`ChunkBuffer.add` records the close and starts a fresh empty chunk at
the parsed position 2 (buffer.ts lines 81–86). -/
def exSpliceLeft : ChunkBuffer :=
  ((ChunkBuffer.mk []).add stEmpty ⟨some 1, 0, 2, none, some [7]⟩).1

/-- An ahead (`previousRight`) buffer whose first chunk starts exactly
at the parsed position 2 with the current state, so `Chunk.isReusable`
accepts it (chunk.ts lines 201–205). -/
def exSpliceRight : ChunkBuffer := ⟨[Chunk.new 2 stEmpty]⟩

/-- The parser fields at the reuse attempt: `parsedPos = 2`, strictly
past the edit's end `1`, with a zero net edit offset. -/
def exSpliceRec : ParserRec := ⟨2, stEmpty, exSpliceLeft, some ⟨0, 1, 0⟩, 10⟩

/-- C2 counterexample: a parse-reachable buffer whose `from` positions
are not strictly increasing.  After a close-action token the working
buffer ends with an empty chunk at `from = 2` (the parsed position),
and `Parser.tryToReuse` splices an ahead chunk that `isReusable`
accepted at exactly `from = 2` (parser.ts lines 342–362): the splice
succeeds and the resulting buffer's `from` positions are `[0, 2, 2]`,
refuting the claim that the `from` positions of every buffer reachable
during a parse strictly increase in array order (the chunks do remain
non-overlapping). -/
theorem chunkBuffer_strict_increase_fails :
    (Parser.tryToReuse exSpliceRec exSpliceRight).1 = true ∧
    ((Parser.tryToReuse exSpliceRec exSpliceRight).2.buffer.chunks.map Chunk.from_ =
      [0, 2, 2]) ∧
    ¬ List.Pairwise (fun a c : Chunk => a.from_ < c.from_)
        (Parser.tryToReuse exSpliceRec exSpliceRight).2.buffer.chunks := by
  refine ⟨rfl, rfl, ?_⟩
  intro hpw
  have hm : List.Pairwise (fun a b : Int => a < b)
      ((Parser.tryToReuse exSpliceRec exSpliceRight).2.buffer.chunks.map Chunk.from_) :=
    List.pairwise_map.2 hpw
  rw [show (Parser.tryToReuse exSpliceRec exSpliceRight).2.buffer.chunks.map Chunk.from_ =
      [0, 2, 2] from rfl] at hm
  exact absurd ((List.pairwise_cons.1 (List.pairwise_cons.1 hm).2).1 2 (by simp)) (by decide)

/-! ## C1 — match-loop progress and termination -/

/-- A concrete `rematch` rule: its pattern is the literal `"a"`, but as a
rematch rule it consumes nothing (rule.ts line 129). -/
def exRematchRule : Rule :=
  ⟨⟨5, "marker"⟩, none, none, [], false, [], true, litExec "a"⟩

/-- A grammar whose root tries only the rematch rule. -/
def exGrammar : Grammar := ⟨[], [exRematchRule], [0], [], none⟩

def exRegion : ParseRegion := ⟨0, 2⟩

/-- C1 counterexample: a step of the match loop that does not advance.
On `"ab"` the rematch rule matches at position 0 with length 0, so
`parseStep` leaves `parsedPos` at 0 even though the region's end (2) has
not been reached — the claim that every match-loop step advances the
position by at least one character is false, and such a grammar loops
forever. -/
theorem parseStep_zero_length_stall :
    (parseStep exGrammar "ab" exRegion 0 exGrammar.startState ⟨[]⟩).map StepOut.pos =
      Except.ok 0 ∧ (0 : Nat) < exRegion.to_ := by
  constructor
  · rfl
  · decide

/-- C1 (amended): a match-loop step advances `parsedPos` by exactly one
character when `Grammar.match` returns no match (forcing the
single-character `ERROR_ADVANCE` token), and by the match's length when
it returns one — so every step with a positive-length match advances by
at least one.  Consequently, for a grammar that never errors and never
yields a zero-length match on the parsed region, the match loop reaches
the region's end within `region.to - pos` steps.  (Zero-length matches —
`rematch` rules or empty-matching patterns — stall the loop, see the
counterexample.) -/
theorem parseStep_progress_and_termination :
    (∀ g doc region pos st buf out,
        parseStep g doc region pos st buf = Except.ok out →
        (matchStep g doc region pos st = Except.ok none →
            out.pos = pos + 1 ∧
            out.tokens = [⟨some (NodeID.ERROR_ADVANCE : Int), (pos : Int),
              ((pos + 1 : Nat) : Int), none, none⟩]) ∧
        (∀ m, matchStep g doc region pos st = Except.ok (some m) →
            out.pos = pos + m.length)) ∧
    (∀ g doc region,
        (∀ pos st, pos < region.to_ →
            (∀ e, matchStep g doc region pos st ≠ Except.error e) ∧
            (∀ m, matchStep g doc region pos st = Except.ok (some m) → 1 ≤ m.length)) →
        ∀ fuel pos st buf, region.to_ ≤ pos + fuel →
          ∃ res, parseLoop g doc region fuel pos st buf = Except.ok res ∧
            region.to_ ≤ res.1) := by
  have hstep : ∀ g doc region pos st buf out,
      parseStep g doc region pos st buf = Except.ok out →
      (matchStep g doc region pos st = Except.ok none →
          out.pos = pos + 1 ∧
          out.tokens = [⟨some (NodeID.ERROR_ADVANCE : Int), (pos : Int),
            ((pos + 1 : Nat) : Int), none, none⟩]) ∧
      (∀ m, matchStep g doc region pos st = Except.ok (some m) →
          out.pos = pos + m.length) := by
    intro g doc region pos st buf out hok
    unfold parseStep at hok
    constructor
    · intro hnone
      rw [hnone] at hok
      simp only [Except.ok.injEq] at hok
      subst hok
      exact ⟨rfl, rfl⟩
    · intro m hsome
      rw [hsome] at hok
      simp only [Except.ok.injEq] at hok
      subst hok
      rfl
  refine ⟨hstep, ?_⟩
  intro g doc region hprog fuel
  induction fuel with
  | zero =>
      intro pos st buf hle
      refine ⟨(pos, st, buf), rfl, by omega⟩
  | succ n ih =>
      intro pos st buf hle
      by_cases hpos : pos < region.to_
      · obtain ⟨hnoerr, hlen1⟩ := hprog pos st hpos
        cases hm : matchStep g doc region pos st with
        | error e => exact absurd hm (hnoerr e)
        | ok res =>
            have hokstep : ∃ out, parseStep g doc region pos st buf = Except.ok out := by
              unfold parseStep
              rw [hm]
              exact ⟨_, rfl⟩
            obtain ⟨out, hout⟩ := hokstep
            have hadv : pos + 1 ≤ out.pos := by
              obtain ⟨h1, h2⟩ := hstep g doc region pos st buf out hout
              cases res with
              | none =>
                  rw [(h1 hm).1]
              | some m =>
                  rw [h2 m hm]
                  have := hlen1 m hm
                  omega
            obtain ⟨res, hres, hresle⟩ := ih out.pos out.state out.buffer (by omega)
            refine ⟨res, ?_, hresle⟩
            unfold parseLoop
            rw [if_pos hpos, hout]
            exact hres
      · refine ⟨(pos, st, buf), ?_, by omega⟩
        unfold parseLoop
        rw [if_neg hpos]

/-- A grammar with no rules at all, only the single-character default
node: every step matches exactly one character. -/
def gDefault : Grammar := ⟨[], [], [], [], some ⟨5, "text"⟩⟩

theorem tryRules_empty_arena (g : Grammar) (hg : g.rules = []) (st : GrammarState)
    (str : String) (pos : Nat) :
    ∀ l, g.tryRules st str pos l = Except.ok none := by
  intro l
  induction l with
  | nil => rfl
  | cons i rest ih =>
      unfold Grammar.tryRules
      rw [hg]
      exact ih

theorem gDefault_match (pos : Nat) (st : GrammarState) (hpos : pos < 2) :
    matchStep gDefault "ab" ⟨0, 2⟩ pos st =
      Except.ok (some ⟨st, ⟨5, "text"⟩, strSlice "ab" pos (pos + 1), pos, none,
        Wrapping.FULL⟩) := by
  unfold matchStep
  have h1 : max (pos - MARGIN_BEFORE) (⟨0, 2⟩ : ParseRegion).from_ = 0 := by
    show max (pos - MARGIN_BEFORE) 0 = 0
    simp only [MARGIN_BEFORE]
    omega
  rw [h1]
  have h2 : min (pos + MARGIN_AFTER) (⟨0, 2⟩ : ParseRegion).to_ = 2 := by
    show min (pos + MARGIN_AFTER) 2 = 2
    simp only [MARGIN_AFTER]
    omega
  rw [h2]
  show gDefault.match st (strSlice "ab" 0 2) (pos - 0) pos = _
  have h3 : strSlice "ab" 0 2 = "ab" := by decide
  rw [h3]
  have h4 : pos - 0 = pos := by omega
  rw [h4]
  cases hstk : st.stack with
  | nil =>
      simp only [Grammar.match, hstk, gDefault]
      rw [tryRules_empty_arena ⟨[], [], [], [], some ⟨5, "text"⟩⟩ rfl st "ab" pos]
      rfl
  | cons top rest =>
      cases hend : top.endRule with
      | none =>
          simp only [Grammar.match, hstk, hend, gDefault]
          rw [tryRules_empty_arena ⟨[], [], [], [], some ⟨5, "text"⟩⟩ rfl st "ab" pos,
            tryRules_empty_arena ⟨[], [], [], [], some ⟨5, "text"⟩⟩ rfl st "ab" pos]
          simp [hend]
      | some ei =>
          simp only [Grammar.match, hstk, hend, gDefault]
          rw [tryRules_empty_arena ⟨[], [], [], [], some ⟨5, "text"⟩⟩ rfl st "ab" pos,
            tryRules_empty_arena ⟨[], [], [], [], some ⟨5, "text"⟩⟩ rfl st "ab" pos]
          simp [hend]

theorem gDefault_progressive :
    ∀ pos st, pos < (⟨0, 2⟩ : ParseRegion).to_ →
      (∀ e, matchStep gDefault "ab" ⟨0, 2⟩ pos st ≠ Except.error e) ∧
      (∀ m, matchStep gDefault "ab" ⟨0, 2⟩ pos st = Except.ok (some m) →
        1 ≤ m.length) := by
  intro pos st hpos
  have hpos2 : pos < 2 := hpos
  have hm := gDefault_match pos st hpos2
  constructor
  · intro e he
    rw [hm] at he
    cases he
  · intro m hsome
    rw [hm] at hsome
    simp only [Except.ok.injEq, Option.some.injEq] at hsome
    subst hsome
    show 1 ≤ (strSlice "ab" pos (pos + 1)).length
    interval_cases pos <;> decide

/-- Witness for `parseStep_progress_and_termination`: with the
default-only grammar, a parse of `"ab"` reaches the region's end in two
steps. -/
theorem parseStep_progress_and_termination_witness :
    ∃ res, parseLoop gDefault "ab" ⟨0, 2⟩ 2 0 gDefault.startState ⟨[]⟩ =
        Except.ok res ∧ (⟨0, 2⟩ : ParseRegion).to_ ≤ res.1 :=
  parseStep_progress_and_termination.2 gDefault "ab" ⟨0, 2⟩ gDefault_progressive 2 0
    gDefault.startState ⟨[]⟩ (by decide)
